import Mathlib

/-!
Verification of the ServeStatic file-resolution and HTTP response engine.

This file gives a shallow embedding, in Lean, of the pure decision logic of
`servestatic/responders.py` (conditional requests, encoding negotiation,
byte-range arithmetic, sliced file bodies) and `servestatic/base.py`
(URL canonicalisation via `posixpath.normpath`, file resolution in
autorefresh mode, eager index construction, directory registration),
together with theorems settling the specification claims about them.

Machine strings are embedded as Lean `String` (for header values) or
`List Char` (for URL/path manipulation, where the Python code works by
splitting on `'/'`).  File contents are `List Nat` (byte values); the
filesystem is an explicit oracle argument.  Python exceptions are
`Option`/`Except` results.
-/

namespace ServeStatic

/-! ### Python string primitives used by `responders.py` -/

/-- ASCII whitespace recognised by Python `str.strip()` (the cases that can
occur in HTTP header values). -/
def isPySpace (c : Char) : Bool :=
  c == ' ' || c == '\t' || c == '\n' || c == '\r' || c == '\x0b' || c == '\x0c'

/-- Python `str.strip()` on a character list. -/
def pyStripL (l : List Char) : List Char :=
  ((l.dropWhile isPySpace).reverse.dropWhile isPySpace).reverse

/-- Python `str.strip()`. -/
def pyStrip (s : String) : String :=
  ⟨pyStripL s.toList⟩

/-- Python `str.partition(sep)` for a single-character separator: splits at
the first occurrence, reporting whether the separator was found. -/
def pyPartitionL (sep : Char) (l : List Char) : List Char × Bool × List Char :=
  let before := l.takeWhile (· ≠ sep)
  let rest := l.dropWhile (· ≠ sep)
  match rest with
  | [] => (before, false, [])
  | _ :: after => (before, true, after)

/-- Digit run of a Python integer literal body: one or more ASCII digits,
with single underscores allowed strictly between digits (CPython `int(str)`
grammar).  Returns the value. -/
def pyDigitsGo (acc : Nat) : List Char → Option Nat
  | [] => some acc
  | '_' :: c :: rest =>
    if c.isDigit then pyDigitsGo (acc * 10 + (c.toNat - 48)) rest else none
  | ['_'] => none
  | c :: rest =>
    if c.isDigit then pyDigitsGo (acc * 10 + (c.toNat - 48)) rest else none

/-- Parse a nonempty digit run (first character must be a digit). -/
def pyDigits : List Char → Option Nat
  | [] => none
  | c :: rest => if c.isDigit then pyDigitsGo (c.toNat - 48) rest else none

/-- Python `int(str)`: strips whitespace, accepts an optional single sign,
then a digit run. -/
def pyInt (s : String) : Option Int :=
  match pyStripL s.toList with
  | '+' :: rest => (pyDigits rest).map (fun n => (n : Int))
  | '-' :: rest => (pyDigits rest).map (fun n => -(n : Int))
  | l => (pyDigits l).map (fun n => (n : Int))

/-! ### Byte-range parsing (`StaticFile.parse_byte_range`, `get_byte_range`) -/

/-- `StaticFile.parse_byte_range`: parse a `Range` header into a raw
`(start, end)` pair, where a `none` end means "to end of file" and a negative
start is a suffix length.  `none` is Python's `ValueError` (malformed header,
non-`bytes` units, missing dash, non-numeric bounds, multiple ranges). -/
def parse_byte_range (range_header : String) : Option (Int × Option Int) :=
  let (units, _, range_spec) := pyPartitionL '=' (pyStripL range_header.toList)
  if units ≠ "bytes".toList then none
  else
    let (start_str, sep, end_str) := pyPartitionL '-' (pyStripL range_spec)
    if !sep then none
    else if start_str = [] then
      match pyInt ⟨end_str⟩ with
      | none => none
      | some k => some (-k, none)
    else
      match pyInt ⟨start_str⟩ with
      | none => none
      | some s =>
        if end_str = [] then some (s, none)
        else
          match pyInt ⟨end_str⟩ with
          | none => none
          | some e => some (s, some e)

/-- `StaticFile.get_byte_range`: resolve the parsed range against the file
size — a negative start becomes `max (start + size) 0`, an absent end becomes
`size - 1`, and the end is clamped to `size - 1`. -/
def get_byte_range (range_header : String) (size : Int) : Option (Int × Int) :=
  match parse_byte_range range_header with
  | none => none
  | some (start0, end0) =>
    let start := if start0 < 0 then max (start0 + size) 0 else start0
    let stop := match end0 with
      | none => size - 1
      | some e => min e (size - 1)
    some (start, stop)

/-! ### Files and bodies (`SlicedFile`, body streaming) -/

/-- A binary file opened for reading: the byte contents and the current
position.  `open(path, "rb")` yields position `0`. -/
structure FileObj where
  content : List Nat
  pos : Nat
deriving DecidableEq, Repr

/-- Python `file.read(size)`: `size < 0` reads to EOF, otherwise at most
`size` bytes from the current position.  Returns the data and the advanced
file. -/
def FileObj.read (f : FileObj) (size : Int) : List Nat × FileObj :=
  let avail := f.content.drop f.pos
  let data := if size < 0 then avail else avail.take size.toNat
  (data, { f with pos := f.pos + data.length })

/-- Python `file.seek(n)` (absolute, `n ≥ 0` at all call sites). -/
def FileObj.seek (f : FileObj) (n : Int) : FileObj :=
  { f with pos := n.toNat }

/-- `SlicedFile`: wraps a file, seeking to `start` on the first read and
yielding no more than `stop - start + 1` bytes in total.  (`stop` is the
source's `end` field, a reserved word in Lean.) -/
structure Sliced where
  fileobj : FileObj
  seeked : Bool
  start : Int
  stop : Int
  remaining : Int
deriving DecidableEq, Repr

/-- `SlicedFile.__init__(fileobj, start, end)`. -/
def Sliced.mk' (fileobj : FileObj) (start stop : Int) : Sliced :=
  { fileobj := fileobj, seeked := false, start := start, stop := stop,
    remaining := stop - start + 1 }

/-- `SlicedFile.read(size)`. -/
def Sliced.read (s : Sliced) (size : Int) : List Nat × Sliced :=
  let s := if !s.seeked then { s with fileobj := s.fileobj.seek s.start, seeked := true } else s
  if s.remaining ≤ 0 then ([], s)
  else
    let size := if size < 0 then s.remaining else min size s.remaining
    let (data, f') := s.fileobj.read size
    (data, { s with fileobj := f', remaining := s.remaining - data.length })

/-- Outputs of a sequence of `read` calls with the given sizes, concatenated. -/
def Sliced.readMany (s : Sliced) : List Int → List Nat
  | [] => []
  | sz :: rest =>
    let (data, s') := s.read sz
    data ++ s'.readMany rest

/-- The bytes a correct `bytes=start-stop` range response must deliver:
bytes `start` through `stop` of the content. -/
def sliceBytes (c : List Nat) (start stop : Int) : List Nat :=
  (c.drop start.toNat).take (stop - start + 1).toNat

/-- Well-formedness of a sliced-file state that has already emitted the
first `k` bytes of its slice: the remaining budget is `stop - start + 1 - k`
and, once seeked, the position is `start + k`. -/
def SlInv (c : List Nat) (start stop : Int) (k : Nat) (sl : Sliced) : Prop :=
  sl.fileobj.content = c ∧ sl.start = start ∧ sl.stop = stop ∧
  (k : Int) ≤ stop - start + 1 ∧ sl.remaining = stop - start + 1 - k ∧
  (sl.seeked = true → (sl.fileobj.pos : Int) = start + k) ∧
  (sl.seeked = false → k = 0)

/-- A response body: either a plain opened file or a range-bounded slice. -/
inductive Body where
  | plain (f : FileObj)
  | sliced (s : Sliced)
deriving DecidableEq, Repr

/-! ### Responses and request headers -/

/-- `Response`: status, ordered headers, optional body. -/
structure Response where
  status : Nat
  headers : List (String × String)
  file : Option Body
deriving DecidableEq, Repr

/-- `NOT_ALLOWED_RESPONSE`. -/
def NOT_ALLOWED_RESPONSE : Response :=
  ⟨405, [("Allow", "GET, HEAD")], none⟩

/-- The request headers consulted by the responders (WSGI keys
`HTTP_IF_NONE_MATCH`, `HTTP_IF_MODIFIED_SINCE`, `HTTP_ACCEPT_ENCODING`,
`HTTP_RANGE`, `QUERY_STRING`); a `none` field is an absent key. -/
structure RequestHeaders where
  if_none_match : Option String := none
  if_modified_since : Option String := none
  accept_encoding : Option String := none
  range : Option String := none
  query_string : Option String := none
deriving DecidableEq, Repr

/-- ASCII lowercase of a character (Python `str.lower()` on header names). -/
def lowerChar (c : Char) : Char :=
  if 'A' ≤ c ∧ c ≤ 'Z' then Char.ofNat (c.toNat + 32) else c

/-- ASCII lowercase of a string. -/
def lowerStr (s : String) : String :=
  ⟨s.toList.map lowerChar⟩

/-- `wsgiref.headers.Headers.get`: first value whose name matches
case-insensitively. -/
def headerGet (hs : List (String × String)) (name : String) : Option String :=
  (hs.find? (fun h => lowerStr h.1 == lowerStr name)).map (·.2)

/-- `wsgiref.headers.Headers.__setitem__`: delete every header with the same
name (case-insensitively), then append the new pair. -/
def setHeader (name value : String) (hs : List (String × String)) :
    List (String × String) :=
  hs.filter (fun h => lowerStr h.1 ≠ lowerStr name) ++ [(name, value)]

/-- `NOT_MODIFIED_HEADERS`: the headers carried over onto a 304 response. -/
def NOT_MODIFIED_HEADERS : List String :=
  ["Cache-Control", "Content-Location", "Date", "ETag", "Expires", "Vary"]

/-- `StaticFile.get_not_modified_response`: the precomputed 304 keeps only
the cache-relevant headers that are present, and has no body. -/
def get_not_modified_response (headers : List (String × String)) : Response :=
  ⟨304,
   NOT_MODIFIED_HEADERS.filterMap
     (fun key => (headerGet headers key).map (fun v => (key, v))),
   none⟩

/-! ### Encoding negotiation (`get_alternatives`, `get_path_and_headers`) -/

/-- Word characters of the regex `\b` boundary (`\w`, ASCII range). -/
def isWordChar (c : Char) : Bool :=
  c.isAlpha || c.isDigit || c == '_'

/-- Whether the pattern `e` occurs at the head of `s` with word boundaries on
both sides, `prev` being the character just before `s` (for encoding tokens,
which consist of word characters, this is exactly `\b e \b`). -/
def wordAt (e : List Char) (prev : Option Char) (s : List Char) : Bool :=
  (match prev with | some c => !isWordChar c | none => true)
  && e.isPrefixOf s
  && (match (s.drop e.length).head? with | some c => !isWordChar c | none => true)

/-- Search `\b e \b` at every position of the remaining input. -/
def wordSearchAux (e : List Char) : Option Char → List Char → Bool
  | prev, [] => wordAt e prev []
  | prev, c :: rest => wordAt e prev (c :: rest) || wordSearchAux e (some c) rest

/-- `re.search(rf"\b{encoding}\b", s)` for an encoding token made of word
characters (e.g. `gzip`, `br`). -/
def wordSearch (e s : String) : Bool :=
  wordSearchAux e.toList none s.toList

/-- An alternative of a `StaticFile`: the compiled matcher (a `none`
encoding stands for the always-matching empty pattern of the identity
variant), the variant's path, and its precomputed headers. -/
structure Alt where
  encoding : Option String
  path : String
  headers : List (String × String)
deriving DecidableEq, Repr

/-- Whether an alternative's matcher accepts the `Accept-Encoding` value:
the identity's empty pattern matches everything, a real token must occur as
a whole word. -/
def altMatches (enc : Option String) (accept : String) : Bool :=
  match enc with
  | none => true
  | some e => wordSearch e accept

/-- A file variant as produced by `FileEntry`: path and size. -/
structure FileEntryM where
  path : String
  size : Nat
deriving DecidableEq, Repr

/-- Stable insertion (Python `sorted` is stable; the new element goes after
existing elements with a key no larger than its own... here: before the
first strictly larger or equal-later element, matching a stable sort). -/
def insSorted (key : α → Nat) (x : α) : List α → List α
  | [] => [x]
  | y :: ys => if key x ≤ key y then x :: y :: ys else y :: insSorted key x ys

/-- Stable sort by a `Nat` key (Python `sorted(..., key=...)`). -/
def sortByKey (key : α → Nat) : List α → List α
  | [] => []
  | x :: xs => insSorted key x (sortByKey key xs)

/-- Normalise a variant's dictionary key the way `get_alternatives` tests it
(`if encoding:`): Python `None` and the empty string are both falsy and give
the always-matching empty pattern and no `Content-Encoding` header. -/
def normEnc (enc : Option String) : Option String :=
  match enc with
  | none => none
  | some e => if e = "" then none else some e

/-- The loop body of `get_alternatives` for one variant: its headers get its
own `Content-Length`, plus `Content-Encoding` for encoded variants. -/
def mkAlt (base_headers : List (String × String))
    (f : Option String × FileEntryM) : Alt :=
  let headers := setHeader "Content-Length" (toString f.2.size) base_headers
  match normEnc f.1 with
  | some e => ⟨some e, f.2.path, setHeader "Content-Encoding" e headers⟩
  | none => ⟨none, f.2.path, headers⟩

/-- `StaticFile.get_alternatives`: sort the variants ascending by file size
(so the smallest acceptable alternative matches first) and precompute each
variant's matcher, path and headers. -/
def get_alternatives (base_headers : List (String × String))
    (files : List (Option String × FileEntryM)) : List Alt :=
  (sortByKey (fun f => f.2.size) files).map (mkAlt base_headers)

/-- The `Accept-Encoding` value actually matched against: absent means
empty, and a sole `*` is treated as empty (no preference). -/
def normAccept (accept_encoding : Option String) : String :=
  let ae := accept_encoding.getD ""
  if ae = "*" then "" else ae

/-- `StaticFile.get_path_and_headers`: return the path and headers of the
first (hence smallest) alternative whose matcher accepts the header value.
`none` is the raised `MissingFileError`. -/
def get_path_and_headers (alternatives : List Alt)
    (accept_encoding : Option String) : Option (String × List (String × String)) :=
  (alternatives.find? (fun alt => altMatches alt.encoding (normAccept accept_encoding))).map
    (fun alt => (alt.path, alt.headers))

/-! ### Conditional requests (`is_not_modified`) -/

/-- The immutable per-URL data of a constructed `StaticFile`.  Dates are the
results of `email.utils.parsedate` abstracted to an ordered timestamp type
(`Int`); the request-header parser `parsedate` is passed to the functions
that use it. -/
structure StaticFileM where
  etag : String
  last_modified : Option Int
  not_modified_response : Response
  alternatives : List Alt
deriving DecidableEq, Repr

/-- `StaticFile.is_not_modified`: an `If-None-Match` header is compared
verbatim against the ETag and, when present, is decisive; otherwise a
parseable `If-Modified-Since` not earlier than `Last-Modified` means not
modified. -/
def is_not_modified (sf : StaticFileM) (parsedate : String → Option Int)
    (req : RequestHeaders) : Bool :=
  match req.if_none_match with
  | some previous_etag => previous_etag == sf.etag
  | none =>
    match sf.last_modified with
    | none => false
    | some lm =>
      match req.if_modified_since with
      | none => false
      | some last_requested =>
        match parsedate last_requested with
        | some ts => ts ≥ lm
        | none => false

/-! ### Range responses and `get_response` -/

/-- The header scan at the top of `get_range_response`: every
`Content-Length` item is parsed (`int(item[1])`, a `ValueError` on failure
aborting the whole range attempt) and removed, the last one giving the size;
all other headers are kept in order. -/
def extractSize : List (String × String) →
    Option (List (String × String) × Option Int)
  | [] => some ([], none)
  | (name, value) :: rest =>
    if name == "Content-Length" then
      match pyInt value with
      | none => none
      | some k =>
        match extractSize rest with
        | none => none
        | some (hs, sz) => some (hs, some (sz.getD k))
    else
      match extractSize rest with
      | none => none
      | some (hs, sz) => some ((name, value) :: hs, sz)

/-- `StaticFile.get_range_not_satisfiable_response`: 416 with only a
`Content-Range: bytes */<size>` header and no body (the file handle is
closed). -/
def get_range_not_satisfiable_response (size : Int) : Response :=
  ⟨416, [("Content-Range", "bytes */" ++ toString size)], none⟩

/-- `StaticFile.get_range_response`.  `none` is the raised `ValueError`
(missing/unparsable `Content-Length`, or an unparsable `Range` header),
which `get_response` turns into the ordinary full response. -/
def get_range_response (range_header : String)
    (base_headers : List (String × String)) (file_handle : Option FileObj) :
    Option Response :=
  match extractSize base_headers with
  | none => none
  | some (_, none) => none
  | some (headers, some size) =>
    match get_byte_range range_header size with
    | none => none
    | some (start, stop) =>
      if start ≥ stop then some (get_range_not_satisfiable_response size)
      else
        let file := file_handle.map (fun f => Body.sliced (Sliced.mk' f start stop))
        some ⟨206,
              headers ++
                [("Content-Range",
                  "bytes " ++ toString start ++ "-" ++ toString stop ++ "/" ++
                    toString size),
                 ("Content-Length", toString (stop - start + 1))],
              file⟩

/-- `StaticFile.get_response(method, request_headers)`.  The filesystem is
the oracle `fc` giving each path's byte contents; opening a path yields a
fresh file at position 0 (not done for `HEAD`).  The result is `none` when
`get_path_and_headers` raises `MissingFileError` (no alternative matched —
a configuration error that propagates).  `aget_response` has the same
decision structure on async handles. -/
def get_response (sf : StaticFileM) (parsedate : String → Option Int)
    (fc : String → List Nat) (method : String) (req : RequestHeaders) :
    Option Response :=
  if method ≠ "GET" ∧ method ≠ "HEAD" then some NOT_ALLOWED_RESPONSE
  else if is_not_modified sf parsedate req then some sf.not_modified_response
  else
    match get_path_and_headers sf.alternatives req.accept_encoding with
    | none => none
    | some (path, headers) =>
      let file_handle : Option FileObj :=
        if method ≠ "HEAD" then some ⟨fc path, 0⟩ else none
      let full : Response := ⟨200, headers, file_handle.map Body.plain⟩
      match req.range with
      | none => some full
      | some range_header =>
        if range_header = "" then some full
        else
          match get_range_response range_header headers file_handle with
          | some resp => some resp
          | none => some full

/-! ### URL and path strings (`base.py`)

URL/path manipulation in `base.py` works by splitting on `'/'`; it is
embedded on `List Char`. -/

/-- URL/filesystem-path strings as character lists. -/
abbrev Str := List Char

/-- Shorthand to write a `Str` from a string literal. -/
def S (s : String) : Str := s.toList

/-- Python `str.split('/')`. -/
def splitSlash : Str → List Str
  | [] => [[]]
  | c :: t =>
    if c = '/' then [] :: splitSlash t
    else
      match splitSlash t with
      | [] => [[c]]
      | p :: ps => (c :: p) :: ps

/-- Whether a string contains two adjacent slashes. -/
def hasDupSlash : Str → Bool
  | a :: b :: t => (a = '/' ∧ b = '/') || hasDupSlash (b :: t)
  | _ => false

/-- Python `'/'.join(...)`. -/
def joinSlash : List Str → Str
  | [] => []
  | [c] => c
  | c :: cs => c ++ '/' :: joinSlash cs

/-- Python `str.rstrip('/')` (also used for `rstrip(os.path.sep)`). -/
def rstripSlash (l : Str) : Str :=
  (l.reverse.dropWhile (· = '/')).reverse

/-- Python `str.strip('/')`. -/
def stripSlash (l : Str) : Str :=
  rstripSlash (l.dropWhile (· = '/'))

/-- The number of initial slashes `posixpath.normpath` preserves: POSIX
allows one or two initial slashes but treats three or more as one. -/
def initialSlashes (l : Str) : Nat :=
  if l.take 1 = ['/'] then
    if l.take 2 = ['/', '/'] ∧ l.take 3 ≠ ['/', '/', '/'] then 2 else 1
  else 1 - 1

/-- The component loop of `posixpath.normpath`: drop empty and `.`
components; a `..` pops the previous component unless the path is relative
and nothing precedes it (or the previous kept component is itself `..`).
The accumulator holds the kept components in reverse. -/
def normComps (isAbs : Bool) : List Str → List Str → List Str
  | acc, [] => acc
  | acc, comp :: rest =>
    if comp = [] ∨ comp = ['.'] then normComps isAbs acc rest
    else if comp ≠ ['.', '.'] ∨ (¬isAbs ∧ acc = []) ∨ acc.head? = some ['.', '.'] then
      normComps isAbs (comp :: acc) rest
    else
      match acc with
      | [] => normComps isAbs [] rest
      | _ :: t => normComps isAbs t rest

/-- `posixpath.normpath`. -/
def normpathL (l : Str) : Str :=
  if l = [] then ['.']
  else
    let k := initialSlashes l
    let new_comps := (normComps (k ≠ 0) [] (splitSlash l)).reverse
    let p := List.replicate k '/' ++ joinSlash new_comps
    if p = [] then ['.'] else p

/-- `ServeStaticBase.url_is_canonical`: no backslashes, and the URL equals
its own normalised form, a trailing slash on a non-root path being put back
before comparing. -/
def url_is_canonical (url : Str) : Bool :=
  if url.contains '\\' then false
  else
    let normalised := normpathL url
    let normalised :=
      if url.getLast? = some '/' ∧ url ≠ ['/'] then normalised ++ ['/'] else normalised
    normalised = url

/-- `posixpath.join` on two segments: an absolute second segment replaces
the first. -/
def osJoin (a b : Str) : Str :=
  if b.take 1 = ['/'] then b
  else if a = [] ∨ a.getLast? = some '/' then a ++ b
  else a ++ '/' :: b

/-- `os.path.commonprefix` of two strings (character-wise longest common
prefix). -/
def commonPrefix : Str → Str → Str
  | a :: as_, b :: bs => if a = b then a :: commonPrefix as_ bs else []
  | _, _ => []

/-! ### File resolution (`find_file`, autorefresh mode) -/

/-- What a path on disk is; the disk oracle maps a path to `none` (missing)
or its kind (`other` covers devices, sockets, FIFOs …). -/
inductive FileKind where
  | regular
  | directory
  | other
deriving DecidableEq, Repr

/-- The filesystem oracle. -/
abbrev Disk := Str → Option FileKind

/-- The exception taxonomy of `responders.py`: `IsDirectoryError` extends
`MissingFileError` extends `NotARegularFileError`. -/
inductive PyErr where
  | missingFile
  | isDirectory
  | notARegularFile
  | valueErr
deriving DecidableEq, Repr

/-- `isinstance(e, MissingFileError)`: `contextlib.suppress(MissingFileError)`
suppresses `MissingFileError` and its subclass `IsDirectoryError`, but not
the base class `NotARegularFileError`. -/
def PyErr.isMissing : PyErr → Bool
  | .missingFile => true
  | .isDirectory => true
  | .notARegularFile => false
  | .valueErr => false

/-- `FileEntry.stat_regular_file` via the disk oracle: missing paths raise
`MissingFileError`, directories `IsDirectoryError`, anything else that is
not a regular file `NotARegularFileError`. -/
def statRegular (disk : Disk) (p : Str) : Except PyErr Unit :=
  match disk p with
  | none => .error .missingFile
  | some .directory => .error .isDirectory
  | some .other => .error .notARegularFile
  | some .regular => .ok ()

/-- `os.path.isfile`. -/
def isRegFile (disk : Disk) (p : Str) : Bool :=
  disk p = some .regular

/-- `ServeStaticBase.is_compressed_variant` with no stat cache: a `.gz`/`.br`
suffix whose unsuffixed sibling is a file. -/
def is_compressed_variant (disk : Disk) (path : Str) : Bool :=
  let suf := path.drop (path.length - 3)
  if suf = S ".gz" ∨ suf = S ".br" then
    isRegFile disk (path.take (path.length - 3))
  else false

/-- What `find_file`/`find_file_at_path` resolve a URL to: a `StaticFile`
built at a path, or a `Redirect` with a relative location. -/
inductive ResolvedEntry where
  | staticFile (path : Str)
  | redirectTo (loc : Str)
deriving DecidableEq, Repr

/-- `ServeStaticBase.get_static_file` in autorefresh mode (no stat cache):
bail out with `MissingFileError` if the path does not exist, then construct
the `StaticFile`, whose `get_file_stats` stats the primary path (raising for
non-regular files) and the `.gz`/`.br` siblings, suppressing only
`MissingFileError` for the latter. -/
def get_static_file (disk : Disk) (path : Str) : Except PyErr ResolvedEntry :=
  if disk path = none then .error .missingFile
  else
    match statRegular disk path with
    | .error e => .error e
    | .ok () =>
      match statRegular disk (path ++ S ".gz") with
      | .error .notARegularFile => .error .notARegularFile
      | _ =>
        match statRegular disk (path ++ S ".br") with
        | .error .notARegularFile => .error .notARegularFile
        | _ => .ok (.staticFile path)

/-- `ServeStaticBase.redirect(from_url, to_url)`: the relative `Location` —
the last segment plus a slash for a directory redirect, `./` for an
index-name-stripping redirect; anything else is a `ValueError` (`none`). -/
def redirectRel (index_file : Str) (from_url to_url : Str) : Option Str :=
  if to_url = from_url ++ ['/'] then
    some ((splitSlash from_url).getLastD [] ++ ['/'])
  else if from_url = to_url ++ index_file then
    some (S "./")
  else none

/-- `ServeStaticBase.find_file_at_path`. -/
def find_file_at_path (disk : Disk) (index_file : Option Str) (path url : Str) :
    Except PyErr ResolvedEntry :=
  if is_compressed_variant disk path then .error .missingFile
  else
    match index_file with
    | none => get_static_file disk path
    | some i =>
      if url.getLast? = some '/' then
        get_static_file disk (osJoin path i)
      else if ('/' :: i).isSuffixOf url then
        if isRegFile disk path then
          match redirectRel i url (url.take (url.length - i.length)) with
          | some loc => .ok (.redirectTo loc)
          | none => .error .valueErr
        else .error .missingFile
      else
        match get_static_file disk path with
        | .ok r => .ok r
        | .error .isDirectory =>
          if isRegFile disk (osJoin path i) then
            match redirectRel i url (url ++ ['/']) with
            | some loc => .ok (.redirectTo loc)
            | none => .error .valueErr
          else .error .missingFile
        | .error e => .error e

/-- `ServeStaticBase.candidate_paths_for_url`: for each registered
`(root, prefix)` whose prefix starts the URL, join the root with the URL
remainder, keeping the result only if it stays under the root
(`os.path.commonprefix` check). -/
def candidate_paths_for_url (directories : List (Str × Str)) (url : Str) :
    List Str :=
  directories.filterMap fun d =>
    if d.2.isPrefixOf url then
      let path := osJoin d.1 (url.drop d.2.length)
      if commonPrefix d.1 path = d.1 then some path else none
    else none

/-- The candidate loop of `find_file`: return the first candidate that
resolves, suppressing (only) `MissingFileError` and its subclasses. -/
def findFirstAt (disk : Disk) (index_file : Option Str) (url : Str) :
    List Str → Except PyErr (Option ResolvedEntry)
  | [] => .ok none
  | p :: rest =>
    match find_file_at_path disk index_file p url with
    | .ok r => .ok (some r)
    | .error e =>
      if e.isMissing then findFirstAt disk index_file url rest else .error e

/-- `ServeStaticBase.find_file` (autorefresh resolution): bail out early for
URLs that end in a slash with no index file configured, or that are not
canonical; otherwise try each candidate path. -/
def find_file (index_file : Option Str) (directories : List (Str × Str))
    (disk : Disk) (url : Str) : Except PyErr (Option ResolvedEntry) :=
  if index_file = none ∧ url.getLast? = some '/' then .ok none
  else if ¬ url_is_canonical url then .ok none
  else findFirstAt disk index_file url (candidate_paths_for_url directories url)

/-! ### Eager index construction (static mode) -/

/-- An entry of the precomputed `files` mapping. -/
inductive UrlEntry where
  | static (path : Str)
  | redirect (loc : Str)
deriving DecidableEq, Repr

/-- `ServeStaticBase.add_file_to_dictionary`, as the ordered list of
`files[...] = ...` assignments it performs; compressed variants register
nothing, a URL ending in `/<index>` registers two redirects and the static
file under the directory URL, anything else one static entry.  `none` is a
`ValueError` escaping from `redirect`. -/
def add_file_to_dictionary (index_file : Option Str) (compressedP : Str → Bool)
    (url path : Str) : Option (List (Str × UrlEntry)) :=
  if compressedP path then some []
  else
    match index_file with
    | some i =>
      if ('/' :: i).isSuffixOf url then
        let index_url := url.take (url.length - i.length)
        let index_no_slash := rstripSlash index_url
        match redirectRel i url index_url, redirectRel i index_no_slash index_url with
        | some r1, some r2 =>
          some [(url, .redirect r1), (index_no_slash, .redirect r2),
                (index_url, .static path)]
        | _, _ => none
      else some [(url, .static path)]
    | none => some [(url, .static path)]

/-- `is_compressed_variant` with a stat cache: the unsuffixed sibling must be
a key of the cache. -/
def is_compressed_variant_cached (paths : List Str) (path : Str) : Bool :=
  let suf := path.drop (path.length - 3)
  if suf = S ".gz" ∨ suf = S ".br" then
    paths.contains (path.take (path.length - 3))
  else false

/-- The per-path step of `update_files_dictionary`: the URL is the prefix
plus the root-relative path with backslashes replaced by slashes. -/
def urlOfPath (root pfx path : Str) : Str :=
  pfx ++ (path.drop root.length).map (fun c => if c = '\\' then '/' else c)

/-- `ServeStaticBase.update_files_dictionary`: scan results to ordered
assignments. -/
def update_files_dictionary (index_file : Option Str) (root pfx : Str)
    (paths : List Str) : Option (List (Str × UrlEntry)) :=
  go paths
where
  go : List Str → Option (List (Str × UrlEntry))
  | [] => some []
  | p :: rest =>
    match add_file_to_dictionary index_file (is_compressed_variant_cached paths)
        (urlOfPath root pfx p) p, go rest with
    | some a, some b => some (a ++ b)
    | _, _ => none

/-- The keys assigned by an eager index build. -/
def staticKeys (index_file : Option Str) (root pfx : Str) (paths : List Str) :
    List Str :=
  ((update_files_dictionary index_file root pfx paths).getD []).map (·.1)

/-- A URL free of the three anomalies of claim C5: backslashes, `..`
components, and duplicate slashes. -/
def goodStr (l : Str) : Prop :=
  '\\' ∉ l ∧ S ".." ∉ splitSlash l ∧ hasDupSlash l = false

/-! ### Directory registration (`insert_directory`, `add_files`) -/

/-- `ServeStaticBase.insert_directory`: exit early if the `(root, prefix)`
pair is already registered, else insert it at the front (later additions
must win in autorefresh mode). -/
def insert_directory (directories : List (Str × Str)) (root pfx : Str) :
    List (Str × Str) :=
  if directories.any (fun d => d.1 = root ∧ d.2 = pfx) then directories
  else (root, pfx) :: directories

/-- `ensure_leading_trailing_slash`. -/
def ensure_leading_trailing_slash (p : Option Str) : Str :=
  let s := stripSlash (p.getD [])
  if s = [] then ['/'] else '/' :: (s ++ ['/'])

/-- `ServeStaticBase.add_files` in autorefresh mode: normalise the root
(via the `abspath` oracle, then exactly one trailing separator) and the
prefix, and register the pair. -/
def add_files_autorefresh (abspath : Str → Str) (directories : List (Str × Str))
    (root : Str) (pfx : Option Str) : List (Str × Str) :=
  insert_directory directories (rstripSlash (abspath root) ++ ['/'])
    (ensure_leading_trailing_slash pfx)

/-! ### Shared concrete fixtures for witnesses and counterexamples -/

namespace Fx

def baseHeaders : List (String × String) := [("Content-Type", "text/plain")]

def files : List (Option String × FileEntryM) :=
  [(none, ⟨"f", 26⟩), (some "gzip", ⟨"f.gz", 10⟩), (some "br", ⟨"f.br", 8⟩)]

def sf : StaticFileM :=
  { etag := "\"abc\"", last_modified := some 10,
    not_modified_response := get_not_modified_response [("ETag", "\"abc\"")],
    alternatives := get_alternatives baseHeaders files }

def pd : String → Option Int :=
  fun s => if s = "D1" then some 5 else if s = "D2" then some 15 else none

def fc : String → List Nat :=
  fun p => if p = "f" then List.range 26 else [9, 9, 9]

/-- A disk with one regular file `/srv/x`. -/
def diskSrv : Disk :=
  fun p => if p = S "/srv/x" then some FileKind.regular else none

/-- A disk with one socket-like entry `/srv/sock`. -/
def diskSock : Disk :=
  fun p => if p = S "/srv/sock" then some FileKind.other else none

end Fx

/-! ### Helper lemmas -/

example : parse_byte_range "bytes=0-13" = some (0, some 13) := by decide
example : parse_byte_range "bytes=-500" = some (-500, none) := by decide
example : parse_byte_range "items=0-5" = none := by decide
example : parse_byte_range "bytes=0-5,10-15" = none := by decide
example : parse_byte_range "bytes=abc" = none := by decide
example : parse_byte_range "" = none := by decide
example : get_byte_range "bytes=100-200" 50 = some (100, 49) := by decide
example : get_byte_range "bytes= 9500 - " 10000 = some (9500, 9999) := by decide
example : get_byte_range " bytes = 9500 - " 10000 = none := by decide

/-- Characterisation of `is_not_modified`: the 304 condition is an exact
`If-None-Match`/ETag match or, with `If-None-Match` absent, a known
`Last-Modified` and a parseable `If-Modified-Since` no earlier than it. -/
theorem is_not_modified_iff (sf : StaticFileM) (pd : String → Option Int)
    (req : RequestHeaders) :
    is_not_modified sf pd req = true ↔
      ((∃ t, req.if_none_match = some t ∧ t = sf.etag) ∨
       (req.if_none_match = none ∧ ∃ lm s d, sf.last_modified = some lm ∧
         req.if_modified_since = some s ∧ pd s = some d ∧ lm ≤ d)) := by
  unfold is_not_modified
  rcases h1 : req.if_none_match with _ | t
  · rcases h2 : sf.last_modified with _ | lm
    · simp [h1, h2]
    · rcases h3 : req.if_modified_since with _ | s
      · simp [h1, h2, h3]
      · rcases h4 : pd s with _ | d
        · simp [h1, h2, h3, h4]
        · simp [h1, h2, h3, h4, ge_iff_le]
  · simp [h1, beq_iff_eq]

/-- Any response produced by `get_range_response` is a 206 or a 416. -/
theorem get_range_response_status (rh : String) (hs : List (String × String))
    (fh : Option FileObj) (r : Response)
    (h : get_range_response rh hs fh = some r) :
    r.status = 206 ∨ r.status = 416 := by
  unfold get_range_response at h
  rcases h1 : extractSize hs with _ | ⟨hs', sz⟩ <;> rw [h1] at h
  · cases h
  · rcases sz with _ | size <;> dsimp only at h
    · cases h
    · rcases h2 : get_byte_range rh size with _ | ⟨start, stop⟩ <;> rw [h2] at h <;>
        dsimp only at h
      · cases h
      · by_cases h3 : start ≥ stop
        · rw [if_pos h3] at h
          cases h
          exact Or.inr rfl
        · rw [if_neg h3] at h
          cases h
          exact Or.inl rfl

/-- When the conditional check fails, a `GET`/`HEAD` response (if any) is a
200, 206 or 416 — never the 304. -/
theorem get_response_status_of_not_modified_false (sf : StaticFileM)
    (pd : String → Option Int) (fc : String → List Nat) (method : String)
    (req : RequestHeaders) (r : Response)
    (hin : is_not_modified sf pd req = false)
    (hm : method = "GET" ∨ method = "HEAD")
    (h : get_response sf pd fc method req = some r) :
    r.status = 200 ∨ r.status = 206 ∨ r.status = 416 := by
  have hm' : ¬(method ≠ "GET" ∧ method ≠ "HEAD") := by
    rcases hm with h' | h' <;> simp [h']
  unfold get_response at h
  rw [if_neg hm'] at h
  rw [hin] at h
  simp only [Bool.false_eq_true, if_false] at h
  rcases hp : get_path_and_headers sf.alternatives req.accept_encoding with _ | ⟨path, headers⟩ <;>
    rw [hp] at h
  · cases h
  · dsimp only at h
    rcases hr : req.range with _ | rh <;> rw [hr] at h <;> dsimp only at h
    · cases h
      exact Or.inl rfl
    · by_cases he : rh = ""
      · rw [if_pos he] at h
        cases h
        exact Or.inl rfl
      · rw [if_neg he] at h
        rcases hg : get_range_response rh headers
            (if method ≠ "HEAD" then some ⟨fc path, 0⟩ else none) with _ | resp <;>
          rw [hg] at h
        · cases h
          exact Or.inl rfl
        · cases h
          exact Or.inr (get_range_response_status _ _ _ _ hg)

/-- When the conditional check succeeds on a `GET`/`HEAD`, the precomputed
not-modified response is returned. -/
theorem get_response_of_not_modified (sf : StaticFileM)
    (pd : String → Option Int) (fc : String → List Nat) (method : String)
    (req : RequestHeaders)
    (hin : is_not_modified sf pd req = true)
    (hm : method = "GET" ∨ method = "HEAD") :
    get_response sf pd fc method req = some sf.not_modified_response := by
  have hm' : ¬(method ≠ "GET" ∧ method ≠ "HEAD") := by
    rcases hm with h' | h' <;> simp [h']
  unfold get_response
  rw [if_neg hm', hin]
  simp

/-! ### Claim C1 — conditional requests -/

/-- C1 counterexample: the claim as stated is false.  With `If-None-Match`
absent, `Last-Modified` known (date 10) and `If-Modified-Since` parsing to
the strictly earlier client date 5, the claim asserts the precomputed 304
is returned; the code compares `client ≥ last_modified` and therefore
returns the full 200 response instead. -/
theorem claim1_counterexample :
    Fx.pd "D1" = some 5 ∧ Fx.sf.last_modified = some 10 ∧ (5 : Int) ≤ 10 ∧
    get_response Fx.sf Fx.pd Fx.fc "GET" { if_modified_since := some "D1" } ≠
      some Fx.sf.not_modified_response := by
  refine ⟨rfl, rfl, by decide, ?_⟩
  decide

/-- C1 (amended): for GET/HEAD, the precomputed 304 response is returned iff
the request's `If-None-Match` equals the ETag exactly, or `If-None-Match` is
absent, `Last-Modified` is known, and `If-Modified-Since` parses to a client
date equal to or *later* than the Last-Modified date; a present-but-unequal
`If-None-Match` is decisive and `If-Modified-Since` is never consulted. -/
theorem claim1_not_modified_iff (sf : StaticFileM) (pd : String → Option Int)
    (fc : String → List Nat) (method : String) (req : RequestHeaders)
    (hm : method = "GET" ∨ method = "HEAD")
    (h304 : sf.not_modified_response.status = 304) :
    get_response sf pd fc method req = some sf.not_modified_response ↔
      ((∃ t, req.if_none_match = some t ∧ t = sf.etag) ∨
       (req.if_none_match = none ∧ ∃ lm s d, sf.last_modified = some lm ∧
         req.if_modified_since = some s ∧ pd s = some d ∧ lm ≤ d)) := by
  constructor
  · intro h
    cases hb : is_not_modified sf pd req with
    | true => exact (is_not_modified_iff sf pd req).mp hb
    | false =>
      exfalso
      rcases get_response_status_of_not_modified_false sf pd fc method req
          sf.not_modified_response hb hm h with h2 | h2 | h2 <;>
        rw [h304] at h2 <;> exact absurd h2 (by decide)
  · intro hr
    exact get_response_of_not_modified sf pd fc method req
      ((is_not_modified_iff sf pd req).mpr hr) hm

/-- C1 witness: a concrete GET whose `If-None-Match` equals the ETag gets
the precomputed 304. -/
theorem claim1_witness :
    Fx.sf.not_modified_response.status = 304 ∧
    get_response Fx.sf Fx.pd Fx.fc "GET" { if_none_match := some "\"abc\"" } =
      some Fx.sf.not_modified_response :=
  ⟨by decide,
   (claim1_not_modified_iff Fx.sf Fx.pd Fx.fc "GET" _ (Or.inl rfl) (by decide)).mpr
     (Or.inl ⟨"\"abc\"", rfl, rfl⟩)⟩

/-- A `Range` header that does not parse makes `get_range_response` raise
`ValueError` (return `none`), whatever the headers and file handle. -/
theorem get_range_response_of_parse_fail (rh : String)
    (hs : List (String × String)) (fh : Option FileObj)
    (hp : parse_byte_range rh = none) :
    get_range_response rh hs fh = none := by
  unfold get_range_response
  rcases h1 : extractSize hs with _ | ⟨hs', sz⟩
  · rfl
  · rcases sz with _ | size
    · rfl
    · dsimp only
      unfold get_byte_range
      rw [hp]

/-- With no (usable) `Range` header and a failed conditional check, a
delivered GET/HEAD response is the ordinary 200. -/
theorem get_response_no_range_status (sf : StaticFileM)
    (pd : String → Option Int) (fc : String → List Nat) (method : String)
    (req : RequestHeaders) (r : Response)
    (hm : method = "GET" ∨ method = "HEAD")
    (hb : is_not_modified sf pd req = false)
    (hr : req.range = none)
    (h : get_response sf pd fc method req = some r) : r.status = 200 := by
  have hm' : ¬(method ≠ "GET" ∧ method ≠ "HEAD") := by
    rcases hm with h' | h' <;> simp [h']
  unfold get_response at h
  rw [if_neg hm', hb] at h
  simp only [Bool.false_eq_true, if_false] at h
  rcases hp : get_path_and_headers sf.alternatives req.accept_encoding with _ | ⟨path, headers⟩ <;>
    rw [hp] at h
  · cases h
  · dsimp only at h
    rw [hr] at h
    cases h
    rfl

/-! ### Claim C8 — malformed Range headers are ignored -/

/-- C8: for a GET/HEAD request whose `Range` header fails to parse as a
single `bytes=start-end` spec (non-`bytes` units, multiple specs, missing
dash, non-numeric bounds — all make `parse_byte_range` raise), the response
is identical to the one for the same request without the `Range` header,
and (conditional check failing) any delivered response is the full 200. -/
theorem claim8_invalid_range_ignored (sf : StaticFileM)
    (pd : String → Option Int) (fc : String → List Nat) (method : String)
    (req : RequestHeaders) (rh : String)
    (hm : method = "GET" ∨ method = "HEAD")
    (hr : req.range = some rh)
    (hp : parse_byte_range rh = none) :
    get_response sf pd fc method req =
      get_response sf pd fc method { req with range := none } ∧
    (is_not_modified sf pd req = false →
      ∀ r, get_response sf pd fc method req = some r → r.status = 200) := by
  have hm' : ¬(method ≠ "GET" ∧ method ≠ "HEAD") := by
    rcases hm with h' | h' <;> simp [h']
  have heq : get_response sf pd fc method req =
      get_response sf pd fc method { req with range := none } := by
    unfold get_response
    rw [if_neg hm', if_neg hm']
    have hreq : is_not_modified sf pd { req with range := none } =
        is_not_modified sf pd req := rfl
    rw [hreq]
    cases hb : is_not_modified sf pd req
    · simp only [Bool.false_eq_true, if_false]
      rcases hp2 : get_path_and_headers sf.alternatives req.accept_encoding with _ | ⟨path, headers⟩
      · rfl
      · dsimp only
        rw [hr]
        dsimp only
        by_cases he : rh = ""
        · rw [if_pos he]
        · rw [if_neg he,
            get_range_response_of_parse_fail rh headers
              (if method ≠ "HEAD" then some ⟨fc path, 0⟩ else none) hp]
    · rfl
  refine ⟨heq, fun hb r h => ?_⟩
  rw [heq] at h
  exact get_response_no_range_status sf pd fc method { req with range := none } r hm hb rfl h

/-- C8 witness: a concrete malformed header (`items=0-5`, wrong units) is
ignored on a GET. -/
theorem claim8_witness :
    get_response Fx.sf Fx.pd Fx.fc "GET" { range := some "items=0-5" } =
      get_response Fx.sf Fx.pd Fx.fc "GET" {} ∧
    get_response Fx.sf Fx.pd Fx.fc "GET" { range := some "items=0-5" } =
      some ⟨200, [("Content-Type", "text/plain"), ("Content-Length", "26")],
            some (Body.plain ⟨List.range 26, 0⟩)⟩ := by
  constructor
  · exact (claim8_invalid_range_ignored Fx.sf Fx.pd Fx.fc "GET"
      { range := some "items=0-5" } "items=0-5" (Or.inl rfl) rfl (by decide)).1
  · rfl

/-! ### Claim C3 — unsatisfiable ranges -/

/-- C3: for a GET or HEAD request (conditional check failing, a variant
selected with headers carrying `Content-Length` = `size`) whose `Range`
header parses but resolves to `start ≥ end` after clamping the end to
`size - 1` — which covers every range lying entirely beyond the file — the
response is exactly 416 with a `Content-Range: bytes */<size>` header and no
body. -/
theorem claim3_range_not_satisfiable (sf : StaticFileM)
    (pd : String → Option Int) (fc : String → List Nat) (method : String)
    (req : RequestHeaders) (rh path : String)
    (hs rest : List (String × String)) (size start stop : Int)
    (hm : method = "GET" ∨ method = "HEAD")
    (hb : is_not_modified sf pd req = false)
    (hr : req.range = some rh)
    (hph : get_path_and_headers sf.alternatives req.accept_encoding = some (path, hs))
    (hex : extractSize hs = some (rest, some size))
    (hbr : get_byte_range rh size = some (start, stop))
    (hge : start ≥ stop) :
    get_response sf pd fc method req =
      some ⟨416, [("Content-Range", "bytes */" ++ toString size)], none⟩ := by
  have hm' : ¬(method ≠ "GET" ∧ method ≠ "HEAD") := by
    rcases hm with h' | h' <;> simp [h']
  have he : rh ≠ "" := by
    intro h
    rw [h] at hbr
    rw [show get_byte_range "" size = none by unfold get_byte_range; rfl] at hbr
    cases hbr
  unfold get_response
  rw [if_neg hm', hb]
  simp only [Bool.false_eq_true, if_false]
  rw [hph]
  dsimp only
  rw [hr]
  dsimp only
  rw [if_neg he]
  unfold get_range_response
  rw [hex]
  dsimp only
  rw [hbr]
  dsimp only
  rw [if_pos hge]
  rfl

/-- C3 witness: `bytes=100-200` on the 26-byte fixture resolves to
`start = 100 ≥ end = 25` and yields the exact 416 response. -/
theorem claim3_witness :
    get_response Fx.sf Fx.pd Fx.fc "GET" { range := some "bytes=100-200" } =
      some ⟨416, [("Content-Range", "bytes */26")], none⟩ :=
  claim3_range_not_satisfiable Fx.sf Fx.pd Fx.fc "GET"
    { range := some "bytes=100-200" } "bytes=100-200" "f"
    [("Content-Type", "text/plain"), ("Content-Length", "26")]
    [("Content-Type", "text/plain")] 26 100 25
    (Or.inl rfl) rfl rfl rfl rfl rfl (by decide)

/-- A range response computed with no file handle (HEAD) carries no body. -/
theorem get_range_response_file_none (rh : String)
    (hs : List (String × String)) (r : Response)
    (h : get_range_response rh hs none = some r) : r.file = none := by
  unfold get_range_response at h
  rcases h1 : extractSize hs with _ | ⟨hs', sz⟩ <;> rw [h1] at h
  · cases h
  · rcases sz with _ | size <;> dsimp only at h
    · cases h
    · rcases h2 : get_byte_range rh size with _ | ⟨start, stop⟩ <;> rw [h2] at h <;>
        dsimp only at h
      · cases h
      · by_cases h3 : start ≥ stop
        · rw [if_pos h3] at h
          cases h
          rfl
        · rw [if_neg h3] at h
          cases h
          rfl

/-! ### Claim C9 — HEAD requests -/

/-- C9 counterexample: the claim as stated is false.  A HEAD request with
`Range: bytes=0-5` on the 26-byte fixture gets the 206 headers: its
`Content-Length` is `6`, the range length, and the full resource's
`Content-Length: 26` (visible in the selected variant's headers, first
conjunct) is absent — the headers do not reflect the full resource. -/
theorem claim9_counterexample :
    get_path_and_headers Fx.sf.alternatives none =
      some ("f", [("Content-Type", "text/plain"), ("Content-Length", "26")]) ∧
    get_response Fx.sf Fx.pd Fx.fc "HEAD" { range := some "bytes=0-5" } =
      some ⟨206, [("Content-Type", "text/plain"), ("Content-Range", "bytes 0-5/26"),
                  ("Content-Length", "6")], none⟩ ∧
    ("Content-Length", "26") ∉
      [("Content-Type", "text/plain"), ("Content-Range", "bytes 0-5/26"),
       ("Content-Length", "6")] :=
  ⟨rfl, rfl, by decide⟩

/-- C9 (amended): every HEAD response carries no body; when the request has
no `Range` header (the conditional check failing and a variant selected) the
headers are exactly the selected variant's full-resource headers, including
its `Content-Length` — but a satisfiable `Range` yields the 206 range
headers, as for GET, still with no body. -/
theorem claim9_head_no_body (sf : StaticFileM) (pd : String → Option Int)
    (fc : String → List Nat) (req : RequestHeaders)
    (hnm : sf.not_modified_response.file = none) :
    (∀ r, get_response sf pd fc "HEAD" req = some r → r.file = none) ∧
    (req.range = none → is_not_modified sf pd req = false →
      ∀ path hs,
        get_path_and_headers sf.alternatives req.accept_encoding = some (path, hs) →
        get_response sf pd fc "HEAD" req = some ⟨200, hs, none⟩) := by
  constructor
  · intro r h
    unfold get_response at h
    rw [if_neg (by decide : ¬(("HEAD" : String) ≠ "GET" ∧ ("HEAD" : String) ≠ "HEAD"))] at h
    cases hb : is_not_modified sf pd req <;> rw [hb] at h
    · simp only [Bool.false_eq_true, if_false] at h
      rcases hp : get_path_and_headers sf.alternatives req.accept_encoding with _ | ⟨path, hs⟩ <;>
        rw [hp] at h
      · cases h
      · dsimp only at h
        rw [if_neg (by decide : ¬(("HEAD" : String) ≠ "HEAD"))] at h
        rcases hr : req.range with _ | rh <;> rw [hr] at h <;> dsimp only at h
        · cases h
          rfl
        · by_cases he : rh = ""
          · rw [if_pos he] at h
            cases h
            rfl
          · rw [if_neg he] at h
            rcases hg : get_range_response rh hs none with _ | resp <;> rw [hg] at h
            · cases h
              rfl
            · cases h
              exact get_range_response_file_none rh hs r hg
    · simp only [if_true] at h
      cases h
      exact hnm
  · intro hr hb path hs hp
    unfold get_response
    rw [if_neg (by decide : ¬(("HEAD" : String) ≠ "GET" ∧ ("HEAD" : String) ≠ "HEAD")), hb]
    simp only [Bool.false_eq_true, if_false]
    rw [hp]
    dsimp only
    rw [if_neg (by decide : ¬(("HEAD" : String) ≠ "HEAD")), hr]
    rfl

/-- C9 witness: a plain HEAD on the fixture returns the full-resource
headers (`Content-Length: 26`) and no body. -/
theorem claim9_witness :
    get_response Fx.sf Fx.pd Fx.fc "HEAD" {} =
      some ⟨200, [("Content-Type", "text/plain"), ("Content-Length", "26")], none⟩ :=
  (claim9_head_no_body Fx.sf Fx.pd Fx.fc {} rfl).2 rfl rfl "f"
    [("Content-Type", "text/plain"), ("Content-Length", "26")] rfl

/-- Reading an unseeked sliced file first seeks to `start`; definitionally
the same as reading the seeked state. -/
theorem Sliced.read_unseeked (c : List Nat) (pos : Nat) (st sp rem sz : Int) :
    (Sliced.mk ⟨c, pos⟩ false st sp rem).read sz =
      (Sliced.mk ⟨c, st.toNat⟩ true st sp rem).read sz := rfl

/-- One `SlicedFile.read` step on an already-seeked well-formed state that
has emitted `k` bytes: the data returned is the next chunk of the slice, the
state stays well-formed, and a `read(-1)` leaves nothing unread. -/
theorem Sliced.read_step_seeked (c : List Nat) (start stop : Int)
    (k pos : Nat) (sz : Int)
    (hs0 : 0 ≤ start) (hss : start ≤ stop) (hstop : stop < (c.length : Int))
    (hk : (k : Int) ≤ stop - start + 1)
    (hpos : (pos : Int) = start + k) :
    ∃ k' : Nat, k ≤ k' ∧ (k' : Int) ≤ stop - start + 1 ∧
      ((Sliced.mk ⟨c, pos⟩ true start stop (stop - start + 1 - k)).read sz).1 =
        ((sliceBytes c start stop).drop k).take (k' - k) ∧
      ((Sliced.mk ⟨c, pos⟩ true start stop (stop - start + 1 - k)).read sz).1.length
        = k' - k ∧
      (sz < 0 → (k' : Int) = stop - start + 1) ∧
      SlInv c start stop k'
        ((Sliced.mk ⟨c, pos⟩ true start stop (stop - start + 1 - k)).read sz).2 := by
  have hstartN : (start.toNat : Int) = start := Int.toNat_of_nonneg hs0
  have hposk : pos = start.toNat + k := by omega
  have hdropk : (sliceBytes c start stop).drop k =
      (c.drop pos).take ((stop - start + 1).toNat - k) := by
    rw [sliceBytes, List.drop_take, List.drop_drop, hposk, Nat.add_comm]
  by_cases hr0 : stop - start + 1 - (k : Int) ≤ 0
  · refine ⟨k, le_refl k, hk, ?_, ?_, ?_, ?_⟩
    · simp only [Sliced.read, Bool.not_true, Bool.false_eq_true, if_false,
        if_pos hr0]
      simp
    · simp only [Sliced.read, Bool.not_true, Bool.false_eq_true, if_false,
        if_pos hr0]
      simp
    · intro h
      omega
    · simp only [Sliced.read, Bool.not_true, Bool.false_eq_true, if_false,
        if_pos hr0]
      exact ⟨rfl, rfl, rfl, hk, rfl, fun _ => hpos, fun h => by cases h⟩
  · have hlen : ((stop - start + 1).toNat : Int) = stop - start + 1 :=
      Int.toNat_of_nonneg (by omega)
    by_cases hsz : sz < 0
    · have hnn : ¬(stop - start + 1 - (k : Int) < 0) := by omega
      refine ⟨(stop - start + 1).toNat, by omega, by omega, ?_, ?_,
        fun _ => by omega, ?_⟩ <;>
        simp only [Sliced.read, Bool.not_true, Bool.false_eq_true, if_false,
          if_neg hr0, FileObj.read, if_pos hsz, if_neg hnn]
      · rw [hdropk, List.take_take, Nat.min_self]
        congr 1
        omega
      · rw [List.length_take, List.length_drop]
        omega
      · refine ⟨rfl, rfl, rfl, by omega, ?_, fun _ => ?_, fun h => by cases h⟩ <;>
          dsimp only <;>
          rw [List.length_take, List.length_drop] <;>
          push_cast <;>
          omega
    · have hnn : ¬(min sz (stop - start + 1 - (k : Int)) < 0) := by omega
      refine ⟨k + min (min sz (stop - start + 1 - k)).toNat (c.length - pos),
        by omega, by omega, ?_, ?_, fun h => absurd h hsz, ?_⟩ <;>
        simp only [Sliced.read, Bool.not_true, Bool.false_eq_true, if_false,
          if_neg hr0, FileObj.read, if_neg hsz, if_neg hnn]
      · rw [hdropk, List.take_take]
        apply List.take_eq_take.mpr
        rw [List.length_drop]
        omega
      · rw [List.length_take, List.length_drop]
        omega
      · refine ⟨rfl, rfl, rfl, by omega, ?_, fun _ => ?_, fun h => by cases h⟩ <;>
          dsimp only <;>
          rw [List.length_take, List.length_drop] <;>
          push_cast <;>
          omega

/-- One `SlicedFile.read` step from any well-formed state. -/
theorem Sliced.read_step (c : List Nat) (start stop : Int) (k : Nat)
    (sl : Sliced) (sz : Int)
    (hs0 : 0 ≤ start) (hss : start ≤ stop) (hstop : stop < (c.length : Int))
    (hinv : SlInv c start stop k sl) :
    ∃ k' : Nat, k ≤ k' ∧ (k' : Int) ≤ stop - start + 1 ∧
      (sl.read sz).1 = ((sliceBytes c start stop).drop k).take (k' - k) ∧
      (sl.read sz).1.length = k' - k ∧
      (sz < 0 → (k' : Int) = stop - start + 1) ∧
      SlInv c start stop k' (sl.read sz).2 := by
  obtain ⟨⟨cont, pos⟩, seeked, st, sp, rem⟩ := sl
  obtain ⟨hc, hst, hsp, hk, hrem, hpos, hseek⟩ := hinv
  dsimp only at hc hst hsp hk hrem hpos hseek
  subst hc hst hsp hrem
  cases seeked with
  | false =>
    have hk0 : k = 0 := hseek rfl
    subst hk0
    rw [Sliced.read_unseeked]
    exact Sliced.read_step_seeked cont st sp 0 st.toNat sz hs0 hss hstop
      (by omega) (by rw [Int.toNat_of_nonneg hs0]; omega)
  | true =>
    exact Sliced.read_step_seeked cont st sp k pos sz hs0 hss hstop hk (hpos rfl)

/-- The concatenated outputs of any sequence of reads on a well-formed
sliced state that has emitted `k` bytes form a contiguous further chunk of
the slice. -/
theorem Sliced.readMany_take (c : List Nat) (start stop : Int)
    (hs0 : 0 ≤ start) (hss : start ≤ stop) (hstop : stop < (c.length : Int)) :
    ∀ (szs : List Int) (k : Nat) (sl : Sliced), SlInv c start stop k sl →
      ∃ k' : Nat, k ≤ k' ∧ (k' : Int) ≤ stop - start + 1 ∧
        sl.readMany szs = ((sliceBytes c start stop).drop k).take (k' - k)
  | [], k, sl, hinv => ⟨k, le_refl k, hinv.2.2.2.1, by simp [Sliced.readMany]⟩
  | sz :: rest, k, sl, hinv => by
    obtain ⟨k', hk1, hk2, hd, hlen, _, hinv'⟩ :=
      Sliced.read_step c start stop k sl sz hs0 hss hstop hinv
    obtain ⟨k'', h1, h2, h3⟩ :=
      Sliced.readMany_take c start stop hs0 hss hstop rest k' (sl.read sz).2 hinv'
    refine ⟨k'', by omega, h2, ?_⟩
    simp only [Sliced.readMany]
    rcases hr : sl.read sz with ⟨d, s'⟩
    rw [hr] at hd h3
    dsimp only at hd h3 ⊢
    rw [hd, h3]
    have hsplit : k'' - k = (k' - k) + (k'' - k') := by omega
    rw [hsplit, List.take_add, List.drop_drop]
    have hkk : k + (k' - k) = k' := by omega
    rw [hkk]

/-- Bounds guaranteed by `get_byte_range`: the resolved start is
non-negative and the end is clamped to `size - 1`. -/
theorem get_byte_range_bounds (rh : String) (size start stop : Int)
    (h : get_byte_range rh size = some (start, stop)) :
    0 ≤ start ∧ stop ≤ size - 1 := by
  unfold get_byte_range at h
  rcases hp : parse_byte_range rh with _ | ⟨s0, e0⟩ <;> rw [hp] at h
  · cases h
  · dsimp only at h
    rw [Option.some_inj, Prod.mk.injEq] at h
    obtain ⟨h1, h2⟩ := h
    rcases e0 with _ | e <;> dsimp only at h2 <;>
      by_cases hs : s0 < 0 <;> simp only [if_pos, if_neg, hs, if_true, if_false] at h1 <;>
      omega

/-! ### Claim C2 — satisfiable range requests -/

/-- C2: for a GET request (conditional check failing, a variant selected
whose headers carry a `Content-Length` equal to the file's true size) whose
`Range` header parses and resolves, by the stated rules, to `start < end`:
the response is a 206 whose headers are the remaining base headers plus
exactly `Content-Range: bytes <start>-<end>/<size>` and a `Content-Length`
of `end - start + 1`, and whose body is the sliced file that (a) on a full
read yields exactly bytes `start` through `end` of the selected file — a
list of exactly `end - start + 1` bytes — and (b) over any sequence of
reads yields a prefix of those bytes, so never more than `end - start + 1`
bytes in total. -/
theorem claim2_range_response (sf : StaticFileM) (pd : String → Option Int)
    (fc : String → List Nat) (req : RequestHeaders) (rh path : String)
    (hs rest : List (String × String)) (size start stop : Int)
    (hb : is_not_modified sf pd req = false)
    (hr : req.range = some rh)
    (hph : get_path_and_headers sf.alternatives req.accept_encoding = some (path, hs))
    (hex : extractSize hs = some (rest, some size))
    (hbr : get_byte_range rh size = some (start, stop))
    (hlt : start < stop)
    (hsz : ((fc path).length : Int) = size) :
    get_response sf pd fc "GET" req =
      some ⟨206,
        rest ++ [("Content-Range", "bytes " ++ toString start ++ "-" ++
                    toString stop ++ "/" ++ toString size),
                 ("Content-Length", toString (stop - start + 1))],
        some (Body.sliced (Sliced.mk' ⟨fc path, 0⟩ start stop))⟩ ∧
    ((Sliced.mk' ⟨fc path, 0⟩ start stop).read (-1)).1 =
      sliceBytes (fc path) start stop ∧
    ((sliceBytes (fc path) start stop).length : Int) = stop - start + 1 ∧
    ∀ szs : List Int, (Sliced.mk' ⟨fc path, 0⟩ start stop).readMany szs <+:
      sliceBytes (fc path) start stop := by
  obtain ⟨hs0, hs1⟩ := get_byte_range_bounds rh size start stop hbr
  have hss : start ≤ stop := le_of_lt hlt
  have hstop : stop < ((fc path).length : Int) := by omega
  have hsl : (sliceBytes (fc path) start stop).length = (stop - start + 1).toNat := by
    rw [sliceBytes, List.length_take, List.length_drop]
    omega
  have hinv0 : SlInv (fc path) start stop 0 (Sliced.mk' ⟨fc path, 0⟩ start stop) :=
    ⟨rfl, rfl, rfl, by omega, by simp [Sliced.mk'], fun h => Bool.noConfusion h,
     fun _ => rfl⟩
  have he : rh ≠ "" := by
    intro h
    rw [h] at hbr
    rw [show get_byte_range "" size = none by unfold get_byte_range; rfl] at hbr
    cases hbr
  refine ⟨?_, ?_, ?_, ?_⟩
  · unfold get_response
    rw [if_neg (by decide : ¬(("GET" : String) ≠ "GET" ∧ ("GET" : String) ≠ "HEAD")), hb]
    simp only [Bool.false_eq_true, if_false]
    rw [hph]
    dsimp only
    rw [if_pos (by decide : ("GET" : String) ≠ "HEAD")]
    rw [hr]
    dsimp only
    rw [if_neg he]
    unfold get_range_response
    rw [hex]
    dsimp only
    rw [hbr]
    dsimp only
    rw [if_neg (by omega : ¬(start ≥ stop))]
    rfl
  · obtain ⟨k', _, _, hd, _, hfull, _⟩ :=
      Sliced.read_step (fc path) start stop 0 (Sliced.mk' ⟨fc path, 0⟩ start stop)
        (-1) hs0 hss hstop hinv0
    have hk' : (k' : Int) = stop - start + 1 := hfull (by norm_num)
    have hk'N : k' = (stop - start + 1).toNat := by omega
    rw [hd, hk'N, List.drop_zero, Nat.sub_zero, ← hsl, List.take_length]
  · rw [hsl]
    omega
  · intro szs
    obtain ⟨k', _, _, h3⟩ :=
      Sliced.readMany_take (fc path) start stop hs0 hss hstop szs 0
        (Sliced.mk' ⟨fc path, 0⟩ start stop) hinv0
    rw [h3, List.drop_zero, Nat.sub_zero]
    exact List.take_prefix k' (sliceBytes (fc path) start stop)

/-- C2 witness: `bytes=0-13` on the 26-byte fixture file returns 206 with
`Content-Range: bytes 0-13/26`, `Content-Length: 14`, and a body that reads
exactly bytes 0 through 13. -/
theorem claim2_witness :
    get_response Fx.sf Fx.pd Fx.fc "GET" { range := some "bytes=0-13" } =
      some ⟨206, [("Content-Type", "text/plain"), ("Content-Range", "bytes 0-13/26"),
                  ("Content-Length", "14")],
            some (Body.sliced (Sliced.mk' ⟨List.range 26, 0⟩ 0 13))⟩ ∧
    ((Sliced.mk' ⟨List.range 26, 0⟩ 0 13).read (-1)).1 = List.range 14 := by
  have h := claim2_range_response Fx.sf Fx.pd Fx.fc { range := some "bytes=0-13" }
    "bytes=0-13" "f" [("Content-Type", "text/plain"), ("Content-Length", "26")]
    [("Content-Type", "text/plain")] 26 0 13 rfl rfl rfl rfl rfl (by decide) (by decide)
  refine ⟨h.1, ?_⟩
  have h2 := h.2.1
  rw [show sliceBytes (Fx.fc "f") 0 13 = List.range 14 from by decide] at h2
  exact h2

/-! ### Claim C4 — encoding negotiation lemmas -/

/-- A whole-word pattern never matches the empty string. -/
theorem wordSearch_empty (e : String) (he : e ≠ "") : wordSearch e "" = false := by
  cases e with
  | mk d =>
    cases d with
    | nil => exact absurd rfl he
    | cons c t => rfl

/-- `normEnc` only produces nonempty tokens. -/
theorem normEnc_ne_empty (o : Option String) (e : String)
    (h : normEnc o = some e) : e ≠ "" := by
  cases o with
  | none => cases h
  | some s =>
    unfold normEnc at h
    dsimp only at h
    by_cases hs : s = ""
    · rw [if_pos hs] at h
      cases h
    · rw [if_neg hs] at h
      cases h
      exact hs

/-- Against an empty `Accept-Encoding` value only the identity matcher
accepts. -/
theorem altMatches_empty (o : Option String) :
    altMatches (normEnc o) "" = (normEnc o).isNone := by
  cases h : normEnc o with
  | none => rfl
  | some e =>
    simp only [altMatches, Option.isNone]
    exact wordSearch_empty e (normEnc_ne_empty o e h)

/-- The matcher stored by `mkAlt` is the normalised encoding. -/
theorem mkAlt_encoding (bh : List (String × String))
    (f : Option String × FileEntryM) : (mkAlt bh f).encoding = normEnc f.1 := by
  unfold mkAlt
  cases h : normEnc f.1 <;> rfl

/-- Membership in a sorted insertion. -/
theorem mem_insSorted (key : α → Nat) (x b : α) (l : List α) :
    b ∈ insSorted key x l ↔ b = x ∨ b ∈ l := by
  induction l with
  | nil => simp [insSorted]
  | cons y ys ih =>
    unfold insSorted
    by_cases h : key x ≤ key y
    · rw [if_pos h]
      simp [or_comm, or_assoc, or_left_comm]
    · rw [if_neg h]
      simp only [List.mem_cons, ih]
      tauto

/-- Sorted insertion preserves sortedness by the key. -/
theorem insSorted_pairwise (key : α → Nat) (x : α) (l : List α)
    (h : l.Pairwise (fun a b => key a ≤ key b)) :
    (insSorted key x l).Pairwise (fun a b => key a ≤ key b) := by
  induction l with
  | nil => simp [insSorted]
  | cons y ys ih =>
    rw [List.pairwise_cons] at h
    obtain ⟨hy, hys⟩ := h
    unfold insSorted
    by_cases hxy : key x ≤ key y
    · rw [if_pos hxy]
      refine List.Pairwise.cons ?_ (List.Pairwise.cons hy hys)
      intro b hb
      rcases List.mem_cons.mp hb with rfl | hb
      · exact hxy
      · exact le_trans hxy (hy b hb)
    · rw [if_neg hxy]
      refine List.Pairwise.cons ?_ (ih hys)
      intro b hb
      rcases (mem_insSorted key x b ys).mp hb with rfl | hb
      · omega
      · exact hy b hb

/-- `sortByKey` sorts ascending by the key. -/
theorem sortByKey_pairwise (key : α → Nat) (l : List α) :
    (sortByKey key l).Pairwise (fun a b => key a ≤ key b) := by
  induction l with
  | nil => exact List.Pairwise.nil
  | cons x xs ih => exact insSorted_pairwise key x (sortByKey key xs) ih

/-- Sorted insertion is a permutation of consing. -/
theorem insSorted_perm (key : α → Nat) (x : α) (l : List α) :
    List.Perm (insSorted key x l) (x :: l) := by
  induction l with
  | nil => exact List.Perm.refl _
  | cons y ys ih =>
    unfold insSorted
    by_cases h : key x ≤ key y
    · rw [if_pos h]
    · rw [if_neg h]
      exact List.Perm.trans (List.Perm.cons y ih) (List.Perm.swap x y ys)

/-- `sortByKey` permutes its input. -/
theorem sortByKey_perm (key : α → Nat) (l : List α) :
    List.Perm (sortByKey key l) l := by
  induction l with
  | nil => exact List.Perm.refl _
  | cons x xs ih =>
    exact List.Perm.trans (insSorted_perm key x (sortByKey key xs))
      (List.Perm.cons x ih)

/-- `find?` over a mapped list, with the predicate transported. -/
theorem find?_map_mkAlt (bh : List (String × String)) (ae : String)
    (l : List (Option String × FileEntryM)) :
    (l.map (mkAlt bh)).find? (fun alt => altMatches alt.encoding ae) =
      ((l.find? (fun f => altMatches (normEnc f.1) ae)).map (mkAlt bh)) := by
  induction l with
  | nil => rfl
  | cons f t ih =>
    simp only [List.map_cons, List.find?]
    rw [mkAlt_encoding]
    cases h : altMatches (normEnc f.1) ae
    · exact ih
    · rfl

/-- A list whose filtering is a singleton finds exactly that element. -/
theorem find?_of_filter_singleton (p : α → Bool) (a : α) (l : List α)
    (h : l.filter p = [a]) : l.find? p = some a := by
  induction l with
  | nil => cases h
  | cons x t ih =>
    rw [List.filter] at h
    cases hx : p x <;> rw [hx] at h
    · rw [List.find?, hx]
      exact ih h
    · rw [List.cons.injEq] at h
      rw [List.find?, hx, h.1]

/-- On a sorted list the first match has the least key among all matches. -/
theorem find?_min_of_sorted (key : α → Nat) (p : α → Bool) (l : List α)
    (hp : l.Pairwise (fun a b => key a ≤ key b)) (f : α)
    (h : l.find? p = some f) :
    ∀ g ∈ l, p g = true → key f ≤ key g := by
  induction l with
  | nil => cases h
  | cons x t ih =>
    rw [List.pairwise_cons] at hp
    rw [List.find?] at h
    intro g hg hpg
    cases hx : p x <;> rw [hx] at h
    · rcases List.mem_cons.mp hg with rfl | hg
      · rw [hpg] at hx
        cases hx
      · exact ih hp.2 h g hg hpg
    · rw [Option.some_inj] at h
      subst h
      rcases List.mem_cons.mp hg with rfl | hg
      · exact le_refl _
      · exact hp.1 g hg

/-- C4: encoding negotiation.  (1) The alternatives are sorted ascending by
file size.  (2) An absent, empty or sole-`*` `Accept-Encoding` selects the
identity variant's path and headers (the variant with no encoding, assumed
unique as dictionary keys are).  (3) In general the selected variant is the
first in ascending-size order whose matcher accepts the normalised header
value — the identity matching always, an encoded variant when its token
occurs as a whole word — so the smallest acceptable variant is returned:
its size is a lower bound on every acceptable variant's size. -/
theorem claim4_encoding_negotiation (bh : List (String × String))
    (files : List (Option String × FileEntryM)) (accept : Option String) :
    (sortByKey (fun f => f.2.size) files).Pairwise
      (fun a b => a.2.size ≤ b.2.size) ∧
    (∀ fe : FileEntryM, (accept = none ∨ accept = some "" ∨ accept = some "*") →
      files.filter (fun f => (normEnc f.1).isNone) = [(none, fe)] →
      get_path_and_headers (get_alternatives bh files) accept =
        some (fe.path, setHeader "Content-Length" (toString fe.size) bh)) ∧
    (∀ f : Option String × FileEntryM,
      (sortByKey (fun g => g.2.size) files).find?
          (fun g => altMatches (normEnc g.1) (normAccept accept)) = some f →
      get_path_and_headers (get_alternatives bh files) accept =
        some ((mkAlt bh f).path, (mkAlt bh f).headers) ∧
      ∀ g ∈ files, altMatches (normEnc g.1) (normAccept accept) = true →
        f.2.size ≤ g.2.size) := by
  have hmain : ∀ f : Option String × FileEntryM,
      (sortByKey (fun g => g.2.size) files).find?
          (fun g => altMatches (normEnc g.1) (normAccept accept)) = some f →
      get_path_and_headers (get_alternatives bh files) accept =
        some ((mkAlt bh f).path, (mkAlt bh f).headers) ∧
      ∀ g ∈ files, altMatches (normEnc g.1) (normAccept accept) = true →
        f.2.size ≤ g.2.size := by
    intro f hf
    constructor
    · unfold get_path_and_headers get_alternatives
      rw [find?_map_mkAlt, hf]
      rfl
    · intro g hg hpg
      exact find?_min_of_sorted (fun h => h.2.size) _ _
        (sortByKey_pairwise (fun h => h.2.size) files) f hf g
        ((sortByKey_perm (fun h => h.2.size) files).mem_iff.mpr hg) hpg
  refine ⟨sortByKey_pairwise _ files, ?_, hmain⟩
  intro fe hacc hfilter
  have hae : normAccept accept = "" := by
    rcases hacc with rfl | rfl | rfl <;> rfl
  have hpred : (fun g : Option String × FileEntryM =>
      altMatches (normEnc g.1) (normAccept accept)) =
      (fun g => (normEnc g.1).isNone) := by
    funext g
    rw [hae]
    exact altMatches_empty g.1
  have hfs : (sortByKey (fun g => g.2.size) files).filter
      (fun g => (normEnc g.1).isNone) = [(none, fe)] := by
    have hperm := (sortByKey_perm (fun g => g.2.size) files).filter
      (fun g => (normEnc g.1).isNone)
    rw [hfilter] at hperm
    exact List.perm_singleton.mp hperm
  have hfind : (sortByKey (fun g => g.2.size) files).find?
      (fun g => altMatches (normEnc g.1) (normAccept accept)) = some (none, fe) := by
    rw [hpred]
    exact find?_of_filter_singleton _ _ _ hfs
  exact (hmain (none, fe) hfind).1

/-- C4 witness: on the fixture (identity 26 bytes, gzip 10, brotli 8), no
`Accept-Encoding` selects the identity, `gzip, br` selects the smallest
acceptable variant, brotli. -/
theorem claim4_witness :
    get_path_and_headers (get_alternatives Fx.baseHeaders Fx.files) none =
      some ("f", setHeader "Content-Length" "26" Fx.baseHeaders) ∧
    get_path_and_headers (get_alternatives Fx.baseHeaders Fx.files)
        (some "gzip, br") =
      some ((mkAlt Fx.baseHeaders (some "br", ⟨"f.br", 8⟩)).path,
            (mkAlt Fx.baseHeaders (some "br", ⟨"f.br", 8⟩)).headers) := by
  constructor
  · exact (claim4_encoding_negotiation Fx.baseHeaders Fx.files none).2.1
      ⟨"f", 26⟩ (Or.inl rfl) rfl
  · exact ((claim4_encoding_negotiation Fx.baseHeaders Fx.files
      (some "gzip, br")).2.2 (some "br", ⟨"f.br", 8⟩) rfl).1

/-! ### Claim C10 — directory registration idempotence -/

/-- The membership test at the top of `insert_directory`. -/
theorem insert_directory_mem_any (d : List (Str × Str)) (root pfx : Str) :
    d.any (fun e => e.1 = root ∧ e.2 = pfx) = true ↔ (root, pfx) ∈ d := by
  rw [List.any_eq_true]
  constructor
  · rintro ⟨e, he, hp⟩
    rw [decide_eq_true_eq] at hp
    obtain ⟨h1, h2⟩ := hp
    obtain ⟨e1, e2⟩ := e
    cases h1
    cases h2
    exact he
  · intro h
    exact ⟨(root, pfx), h, by simp⟩

/-- `insert_directory` preserves absence of duplicates. -/
theorem insert_directory_nodup (d : List (Str × Str)) (root pfx : Str)
    (h : d.Nodup) : (insert_directory d root pfx).Nodup := by
  unfold insert_directory
  by_cases hm : (root, pfx) ∈ d
  · rw [if_pos ((insert_directory_mem_any d root pfx).mpr hm)]
    exact h
  · rw [if_neg (fun hc => hm ((insert_directory_mem_any d root pfx).mp hc))]
    exact List.Nodup.cons hm h

/-- C10: `insert_directory` is idempotent on duplicates — a `(root, prefix)`
pair already present leaves the list unchanged, a new pair is inserted at
the front — and therefore the directories list built by any sequence of
`insert_directory`/`add_files` calls from a duplicate-free start (the
constructor starts from `[]`) never contains the same pair twice. -/
theorem claim10_insert_directory_idempotent :
    (∀ (d : List (Str × Str)) (root pfx : Str),
      (root, pfx) ∈ d → insert_directory d root pfx = d) ∧
    (∀ (d : List (Str × Str)) (root pfx : Str),
      (root, pfx) ∉ d → insert_directory d root pfx = (root, pfx) :: d) ∧
    (∀ (calls : List (Str × Str)) (d : List (Str × Str)), d.Nodup →
      (calls.foldl (fun acc c => insert_directory acc c.1 c.2) d).Nodup) ∧
    (∀ (abspath : Str → Str) (calls : List (Str × Option Str))
        (d : List (Str × Str)), d.Nodup →
      (calls.foldl (fun acc c => add_files_autorefresh abspath acc c.1 c.2) d).Nodup) := by
  refine ⟨?_, ?_, ?_, ?_⟩
  · intro d root pfx h
    unfold insert_directory
    rw [if_pos ((insert_directory_mem_any d root pfx).mpr h)]
  · intro d root pfx h
    unfold insert_directory
    rw [if_neg (fun hc => h ((insert_directory_mem_any d root pfx).mp hc))]
  · intro calls
    induction calls with
    | nil => exact fun d h => h
    | cons c rest ih =>
      intro d h
      exact ih (insert_directory d c.1 c.2) (insert_directory_nodup d c.1 c.2 h)
  · intro abspath calls
    induction calls with
    | nil => exact fun d h => h
    | cons c rest ih =>
      intro d h
      exact ih _ (insert_directory_nodup _ _ _ h)

/-- C10 witness: re-inserting a registered pair changes nothing; a fresh
pair goes to the front; folded insertions stay duplicate-free. -/
theorem claim10_witness :
    insert_directory [(S "/a/", S "/")] (S "/a/") (S "/") = [(S "/a/", S "/")] ∧
    insert_directory [(S "/a/", S "/")] (S "/b/") (S "/") =
      [(S "/b/", S "/"), (S "/a/", S "/")] ∧
    ([(S "/a/", S "/"), (S "/a/", S "/"), (S "/b/", S "/")].foldl
      (fun acc c => insert_directory acc c.1 c.2) []).Nodup :=
  ⟨claim10_insert_directory_idempotent.1 _ _ _ (by decide),
   claim10_insert_directory_idempotent.2.1 _ _ _ (by decide),
   claim10_insert_directory_idempotent.2.2.1 _ [] List.nodup_nil⟩

/-! ### Claim C6 — index-file synthesis in eager mode -/

/-- Stripping trailing slashes from a slash-terminated string whose stem has
none gives back the stem. -/
theorem rstripSlash_append_slash (u : Str) (h : u.getLast? ≠ some '/') :
    rstripSlash (u ++ ['/']) = u := by
  unfold rstripSlash
  rw [List.reverse_append]
  show (('/' :: u.reverse).dropWhile (· = '/')).reverse = u
  rw [List.dropWhile_cons]
  simp only [decide_True, if_true]
  cases hu : u.reverse with
  | nil =>
    have : u = [] := by simpa using congrArg List.reverse hu
    simp [this]
  | cons c t =>
    have hc : c ≠ '/' := by
      intro hc
      apply h
      rw [← List.head?_reverse, hu, hc]
      rfl
    rw [List.dropWhile_cons, if_neg (by simpa using hc), ← hu, List.reverse_reverse]

/-- C6: in eager mode with index file `i` (nonempty), a scanned file whose
URL is `u' ++ "/" ++ i` (the directory stem `u'` not itself ending in a
slash, as scan-produced URLs never do) registers exactly three entries, in
order: the full URL and the stem both map to redirects constructed toward
the directory URL with trailing slash (`./` resp. the last path segment plus
a slash), and the `StaticFile` content entry is registered under the
directory URL *with* trailing slash — not under the literal index URL.  The
three keys are pairwise distinct. -/
theorem claim6_index_synthesis (i u' path : Str) (compressedP : Str → Bool)
    (hi : i ≠ []) (hnoslash : u'.getLast? ≠ some '/')
    (hcomp : compressedP path = false) :
    add_file_to_dictionary (some i) compressedP (u' ++ '/' :: i) path =
      some [(u' ++ '/' :: i, UrlEntry.redirect (S "./")),
            (u', UrlEntry.redirect ((splitSlash u').getLastD [] ++ ['/'])),
            (u' ++ ['/'], UrlEntry.static path)] ∧
    redirectRel i (u' ++ '/' :: i) (u' ++ ['/']) = some (S "./") ∧
    redirectRel i u' (u' ++ ['/']) =
      some ((splitSlash u').getLastD [] ++ ['/']) ∧
    u' ++ '/' :: i ≠ u' ++ ['/'] ∧ u' ++ '/' :: i ≠ u' ∧ u' ++ ['/'] ≠ u' := by
  have hlen : ∀ a b : Str, a.length ≠ b.length → a ≠ b := by
    intro a b h hab
    exact h (congrArg List.length hab)
  have hine : 1 ≤ i.length := by
    cases i with
    | nil => exact absurd rfl hi
    | cons c t => simp
  have hr1 : redirectRel i (u' ++ '/' :: i) (u' ++ ['/']) = some (S "./") := by
    unfold redirectRel
    rw [if_neg (hlen _ _ (by
      simp only [List.length_append, List.length_cons, List.length_singleton]
      omega))]
    rw [if_pos (by rw [List.append_assoc]; rfl)]
  have hr2 : redirectRel i u' (u' ++ ['/']) =
      some ((splitSlash u').getLastD [] ++ ['/']) := by
    unfold redirectRel
    rw [if_pos rfl]
  have htake : (u' ++ '/' :: i).take ((u' ++ '/' :: i).length - i.length) =
      u' ++ ['/'] := by
    have : (u' ++ '/' :: i).length - i.length = u'.length + 1 := by
      simp only [List.length_append, List.length_cons]
      omega
    rw [this, List.take_append_eq_append_take,
      List.take_of_length_le (by omega)]
    congr 1
    have : u'.length + 1 - u'.length = 1 := by omega
    rw [this]
    rfl
  refine ⟨?_,
    hr1, hr2,
    hlen _ _ (by
      simp only [List.length_append, List.length_cons, List.length_nil]
      omega),
    hlen _ _ (by
      simp only [List.length_append, List.length_cons]
      omega),
    hlen _ _ (by
      simp only [List.length_append, List.length_cons, List.length_nil]
      omega)⟩
  unfold add_file_to_dictionary
  rw [hcomp]
  simp only [Bool.false_eq_true, if_false]
  rw [if_pos (show (('/' :: i).isSuffixOf (u' ++ '/' :: i)) = true by
    rw [List.isSuffixOf_iff_suffix]
    exact List.suffix_append u' ('/' :: i))]
  rw [htake, rstripSlash_append_slash u' hnoslash, hr1, hr2]

/-- C6 witness: `/docs/index.html` registers `/docs/index.html → ./`,
`/docs → docs/` and the static entry under `/docs/`. -/
theorem claim6_witness :
    add_file_to_dictionary (some (S "index.html")) (fun _ => false)
        (S "/docs" ++ '/' :: S "index.html") (S "/r/docs/index.html") =
      some [(S "/docs" ++ '/' :: S "index.html", UrlEntry.redirect (S "./")),
            (S "/docs", UrlEntry.redirect ((splitSlash (S "/docs")).getLastD [] ++ ['/'])),
            (S "/docs" ++ ['/'], UrlEntry.static (S "/r/docs/index.html"))] :=
  (claim6_index_synthesis (S "index.html") (S "/docs") (S "/r/docs/index.html")
    (fun _ => false) (by decide) (by decide) rfl).1

/-! ### Claim C7 — non-regular files -/

/-- If every candidate fails with a `MissingFileError`-family error, the
candidate loop suppresses them all and returns `none`. -/
theorem findFirstAt_all_missing (disk : Disk) (idx : Option Str) (url : Str)
    (ps : List Str)
    (h : ∀ p ∈ ps, ∃ e, find_file_at_path disk idx p url = .error e ∧
      e.isMissing = true) :
    findFirstAt disk idx url ps = .ok none := by
  induction ps with
  | nil => rfl
  | cons p rest ih =>
    obtain ⟨e, he, hm⟩ := h p (List.mem_cons_self p rest)
    unfold findFirstAt
    rw [he]
    dsimp only
    rw [hm]
    simp only [if_true]
    exact ih (fun q hq => h q (List.mem_cons_of_mem p hq))

/-- A candidate raising outside the `MissingFileError` family aborts the
loop: the error propagates past all earlier (suppressed) candidates. -/
theorem findFirstAt_propagates (disk : Disk) (idx : Option Str) (url : Str)
    (ps₁ : List Str) (p : Str) (ps₂ : List Str) (e : PyErr)
    (h₁ : ∀ q ∈ ps₁, ∃ e', find_file_at_path disk idx q url = .error e' ∧
      e'.isMissing = true)
    (hp : find_file_at_path disk idx p url = .error e)
    (hm : e.isMissing = false) :
    findFirstAt disk idx url (ps₁ ++ p :: ps₂) = .error e := by
  induction ps₁ with
  | nil =>
    rw [List.nil_append]
    unfold findFirstAt
    rw [hp]
    dsimp only
    rw [hm]
    simp
  | cons q rest ih =>
    obtain ⟨e', he', hm'⟩ := h₁ q (List.mem_cons_self q rest)
    rw [List.cons_append]
    unfold findFirstAt
    rw [he']
    dsimp only
    rw [hm']
    simp only [if_true]
    exact ih (fun r hr => h₁ r (List.mem_cons_of_mem q hr))

/-- With no index file configured, a non-compressed-variant path that exists
but is neither a regular file nor a directory raises
`NotARegularFileError` from `find_file_at_path`. -/
theorem find_file_at_path_other (disk : Disk) (p url : Str)
    (hcomp : is_compressed_variant disk p = false)
    (hd : disk p = some FileKind.other) :
    find_file_at_path disk none p url = .error PyErr.notARegularFile := by
  unfold find_file_at_path
  rw [hcomp]
  simp only [Bool.false_eq_true, if_false]
  unfold get_static_file
  rw [if_neg (by rw [hd]; intro h; cases h)]
  unfold statRegular
  rw [hd]

/-- C7 counterexample: the claim as stated is false.  With `/srv/` served at
`/` and `/srv/sock` a socket, `find_file "/sock"` does not return `none`:
`stat_regular_file` raises `NotARegularFileError`, which is the *base*
class of `MissingFileError`, so `contextlib.suppress(MissingFileError)` does
not catch it and it propagates to the caller. -/
theorem claim7_counterexample :
    find_file none [(S "/srv/", S "/")] Fx.diskSock (S "/sock") =
      .error PyErr.notARegularFile ∧
    PyErr.notARegularFile.isMissing = false := ⟨rfl, rfl⟩

/-- C7 (amended): candidates whose resolution raises a
`MissingFileError`-family error (missing paths, directories) are suppressed
and resolution continues, returning `none` if all candidates fail that way;
but a candidate that exists and is neither a regular file nor a directory
raises `NotARegularFileError`, which is outside the suppressed family and
propagates out of `find_file` instead of being treated as missing. -/
theorem claim7_not_regular_propagates (disk : Disk) (idx : Option Str)
    (url : Str) (dirs : List (Str × Str))
    (hok : ¬(idx = none ∧ url.getLast? = some '/'))
    (hcan : url_is_canonical url = true) :
    ((∀ p ∈ candidate_paths_for_url dirs url,
        ∃ e, find_file_at_path disk idx p url = .error e ∧ e.isMissing = true) →
      find_file idx dirs disk url = .ok none) ∧
    (∀ ps₁ p ps₂, candidate_paths_for_url dirs url = ps₁ ++ p :: ps₂ →
      (∀ q ∈ ps₁, ∃ e, find_file_at_path disk idx q url = .error e ∧
        e.isMissing = true) →
      find_file_at_path disk idx p url = .error PyErr.notARegularFile →
      find_file idx dirs disk url = .error PyErr.notARegularFile) ∧
    (∀ p, is_compressed_variant disk p = false → disk p = some FileKind.other →
      find_file_at_path disk none p url = .error PyErr.notARegularFile) := by
  have hff : find_file idx dirs disk url =
      findFirstAt disk idx url (candidate_paths_for_url dirs url) := by
    unfold find_file
    rw [if_neg hok, if_neg (fun h => h hcan)]
  refine ⟨?_, ?_, ?_⟩
  · intro h
    rw [hff]
    exact findFirstAt_all_missing disk idx url _ h
  · intro ps₁ p ps₂ hsplit h₁ hp
    rw [hff, hsplit]
    exact findFirstAt_propagates disk idx url ps₁ p ps₂ _ h₁ hp rfl
  · intro p hcomp hd
    exact find_file_at_path_other disk p url hcomp hd

/-- C7 witness: on the socket fixture the propagation theorem applies with
the single candidate `/srv/sock`, and a directory-only disk resolves to
`none`. -/
theorem claim7_witness :
    find_file none [(S "/srv/", S "/")] Fx.diskSock (S "/sock") =
      .error PyErr.notARegularFile ∧
    find_file none [(S "/srv/", S "/")] Fx.diskSrv (S "/nope") = .ok none := by
  constructor
  · exact (claim7_not_regular_propagates Fx.diskSock none (S "/sock")
      [(S "/srv/", S "/")] (by intro h; exact absurd h.2 (by decide)) (by decide)).2.1
      [] (S "/srv/sock") [] rfl (fun q hq => absurd hq (List.not_mem_nil q)) rfl
  · exact (claim7_not_regular_propagates Fx.diskSrv none (S "/nope")
      [(S "/srv/", S "/")] (by intro h; exact absurd h.2 (by decide)) (by decide)).1
      (by
        intro p hp
        rw [show candidate_paths_for_url [(S "/srv/", S "/")] (S "/nope") =
          [S "/srv/nope"] from rfl] at hp
        cases List.mem_singleton.mp hp
        exact ⟨PyErr.missingFile, rfl, rfl⟩)

/-! ### Claim C5 — splitting and joining on slashes -/

/-- Splitting never yields an empty component list. -/
theorem splitSlash_ne_nil (l : Str) : splitSlash l ≠ [] := by
  cases l with
  | nil => exact fun h => List.noConfusion h
  | cons c t =>
    unfold splitSlash
    by_cases hc : c = '/'
    · rw [if_pos hc]
      exact fun h => List.noConfusion h
    · rw [if_neg hc]
      cases splitSlash t with
      | nil => exact fun h => List.noConfusion h
      | cons p ps => exact fun h => List.noConfusion h

/-- Unfolding equation: a leading slash opens an empty component. -/
theorem splitSlash_cons_slash (t : Str) :
    splitSlash ('/' :: t) = [] :: splitSlash t := by
  conv_lhs => unfold splitSlash
  rw [if_pos rfl]

/-- Unfolding equation for a non-slash head. -/
theorem splitSlash_cons_ne (c : Char) (t : Str) (hc : c ≠ '/') :
    splitSlash (c :: t) =
      match splitSlash t with
      | [] => [[c]]
      | p :: ps => (c :: p) :: ps := by
  conv_lhs => unfold splitSlash
  rw [if_neg hc]

/-- A slash at the junction splits an append cleanly. -/
theorem splitSlash_append (a b : Str) :
    splitSlash (a ++ '/' :: b) = splitSlash a ++ splitSlash b := by
  induction a with
  | nil => rfl
  | cons c t ih =>
    rw [List.cons_append]
    by_cases hc : c = '/'
    · subst hc
      rw [splitSlash_cons_slash, splitSlash_cons_slash, ih, List.cons_append]
    · rw [splitSlash_cons_ne c _ hc, splitSlash_cons_ne c t hc, ih]
      cases hsp : splitSlash t with
      | nil => exact absurd hsp (splitSlash_ne_nil t)
      | cons p ps =>
        rw [List.cons_append]
        rfl

/-- Components contain no slashes. -/
theorem mem_splitSlash_no_slash (l : Str) : ∀ c ∈ splitSlash l, '/' ∉ c := by
  induction l with
  | nil =>
    intro c hc
    rw [show splitSlash [] = [[]] from rfl, List.mem_singleton] at hc
    subst hc
    exact List.not_mem_nil '/'
  | cons x t ih =>
    intro c hc
    unfold splitSlash at hc
    by_cases hx : x = '/'
    · rw [if_pos hx, List.mem_cons] at hc
      rcases hc with rfl | hc
      · exact List.not_mem_nil '/'
      · exact ih c hc
    · rw [if_neg hx] at hc
      cases hsp : splitSlash t with
      | nil => exact absurd hsp (splitSlash_ne_nil t)
      | cons p ps =>
        rw [hsp, List.mem_cons] at hc
        rcases hc with rfl | hc
        · intro hmem
          rcases List.mem_cons.mp hmem with rfl | hmem
          · exact hx rfl
          · exact ih p (hsp ▸ List.mem_cons_self p ps) hmem
        · exact ih c (hsp ▸ List.mem_cons_of_mem p hc)

/-- A slash-free string is a single component. -/
theorem splitSlash_slashfree (c : Str) (h : '/' ∉ c) : splitSlash c = [c] := by
  induction c with
  | nil => rfl
  | cons x t ih =>
    unfold splitSlash
    rw [if_neg (fun hx => h (List.mem_cons.mpr (Or.inl hx.symm))),
      ih (fun hm => h (List.mem_cons_of_mem x hm))]

/-- Splitting inverts joining for slash-free components. -/
theorem splitSlash_joinSlash (cs : List Str) (h : ∀ c ∈ cs, '/' ∉ c)
    (hne : cs ≠ []) : splitSlash (joinSlash cs) = cs := by
  induction cs with
  | nil => exact absurd rfl hne
  | cons c cs' ih =>
    cases cs' with
    | nil => exact splitSlash_slashfree c (h c (List.mem_cons_self c []))
    | cons c' cs'' =>
      show splitSlash (c ++ '/' :: joinSlash (c' :: cs'')) = c :: c' :: cs''
      rw [splitSlash_append, splitSlash_slashfree c (h c (List.mem_cons_self c _)),
        ih (fun x hx => h x (List.mem_cons_of_mem c hx)) (fun hx => List.noConfusion hx)]
      rfl

/-- Joining inverts splitting. -/
theorem joinSlash_splitSlash (l : Str) : joinSlash (splitSlash l) = l := by
  induction l with
  | nil => rfl
  | cons x t ih =>
    unfold splitSlash
    by_cases hx : x = '/'
    · rw [if_pos hx]
      subst hx
      show joinSlash ([] :: splitSlash t) = '/' :: t
      cases hsp : splitSlash t with
      | nil => exact absurd hsp (splitSlash_ne_nil t)
      | cons p ps =>
        show [] ++ '/' :: joinSlash (p :: ps) = '/' :: t
        rw [List.nil_append, ← hsp, ih]
    · rw [if_neg hx]
      cases hsp : splitSlash t with
      | nil => exact absurd hsp (splitSlash_ne_nil t)
      | cons p ps =>
        cases ps with
        | nil =>
          show x :: p = x :: t
          have : joinSlash [p] = t := by rw [← hsp, ih]
          rw [show joinSlash [p] = p from rfl] at this
          rw [this]
        | cons q qs =>
          show (x :: p) ++ '/' :: joinSlash (q :: qs) = x :: t
          have : p ++ '/' :: joinSlash (q :: qs) = t := by
            rw [show p ++ '/' :: joinSlash (q :: qs) = joinSlash (p :: q :: qs) from rfl,
              ← hsp, ih]
          rw [List.cons_append, this]

/-- A slash-free string has no double slash. -/
theorem hasDupSlash_slashfree : ∀ c : Str, '/' ∉ c → hasDupSlash c = false
  | [], _ => rfl
  | [_], _ => rfl
  | a :: b :: t, h => by
    unfold hasDupSlash
    rw [hasDupSlash_slashfree (b :: t) (fun hm => h (List.mem_cons_of_mem a hm))]
    simp only [Bool.or_false, decide_eq_false_iff_not]
    intro hab
    exact h (List.mem_cons.mpr (Or.inl hab.1.symm))

/-- Unfolding equation for `hasDupSlash` on two or more characters. -/
theorem hasDupSlash_cons_cons (a b : Char) (t : Str) :
    hasDupSlash (a :: b :: t) =
      (decide (a = '/' ∧ b = '/') || hasDupSlash (b :: t)) := rfl

/-- Double-slash-freeness is preserved by an append whose junction is not a
double slash. -/
theorem hasDupSlash_append : ∀ (a b : Str), hasDupSlash a = false →
    hasDupSlash b = false → (a.getLast? = some '/' → b.head? ≠ some '/') →
    hasDupSlash (a ++ b) = false
  | [], b, _, hb, _ => hb
  | [x], b, _, hb, hab => by
    cases b with
    | nil => rfl
    | cons y t =>
      show hasDupSlash (x :: y :: t) = false
      rw [hasDupSlash_cons_cons, hb]
      simp only [Bool.or_false, decide_eq_false_iff_not]
      intro hxy
      exact hab (by rw [hxy.1]; rfl) (by rw [hxy.2]; rfl)
  | x :: y :: t, b, ha, hb, hab => by
    rw [hasDupSlash_cons_cons] at ha
    rw [Bool.or_eq_false_iff] at ha
    show hasDupSlash (x :: y :: (t ++ b)) = false
    rw [hasDupSlash_cons_cons, show y :: (t ++ b) = (y :: t) ++ b from rfl,
      hasDupSlash_append (y :: t) b ha.2 hb
        (fun h => hab (by rw [List.getLast?_cons_cons]; exact h)),
      ha.1]
    rfl

/-- The head of a slash-join of components starting with a nonempty one. -/
theorem head?_joinSlash (c : Str) (cs : List Str) (hc : c ≠ []) :
    (joinSlash (c :: cs)).head? = c.head? := by
  cases cs with
  | nil => rfl
  | cons c' cs' =>
    show (c ++ '/' :: joinSlash (c' :: cs')).head? = c.head?
    cases c with
    | nil => exact absurd rfl hc
    | cons x xs => rfl

/-- Joining nonempty slash-free components with single slashes never
produces a double slash. -/
theorem hasDupSlash_joinSlash : ∀ cs : List Str,
    (∀ c ∈ cs, c ≠ [] ∧ '/' ∉ c) → hasDupSlash (joinSlash cs) = false
  | [], _ => rfl
  | [c], h => hasDupSlash_slashfree c (h c (List.mem_cons_self c [])).2
  | c :: c' :: cs'', h => by
    show hasDupSlash (c ++ '/' :: joinSlash (c' :: cs'')) = false
    have hc := h c (List.mem_cons_self c _)
    have hrest : ∀ x ∈ c' :: cs'', x ≠ [] ∧ '/' ∉ x :=
      fun x hx => h x (List.mem_cons_of_mem c hx)
    have hc' := hrest c' (List.mem_cons_self c' _)
    apply hasDupSlash_append c ('/' :: joinSlash (c' :: cs''))
      (hasDupSlash_slashfree c hc.2)
    · show hasDupSlash ('/' :: joinSlash (c' :: cs'')) = false
      cases hj : joinSlash (c' :: cs'') with
      | nil => rfl
      | cons z zs =>
        rw [hasDupSlash_cons_cons, ← hj, hasDupSlash_joinSlash (c' :: cs'') hrest]
        simp only [Bool.or_false, decide_eq_false_iff_not]
        intro hz
        have : (joinSlash (c' :: cs'')).head? = c'.head? :=
          head?_joinSlash c' cs'' hc'.1
        rw [hj, hz.2] at this
        cases c' with
        | nil => exact hc'.1 rfl
        | cons w ws =>
          rw [show (w :: ws).head? = some w from rfl] at this
          have hw : w = '/' := by
            cases this
            rfl
          exact hc'.2 (hw ▸ List.mem_cons_self w ws)
    · intro hlast
      exact absurd (List.mem_of_mem_getLast? hlast) (fun hm => hc.2 hm)

/-- A double slash in a string survives appending. -/
theorem hasDupSlash_append_left : ∀ (a t : Str), hasDupSlash a = true →
    hasDupSlash (a ++ t) = true
  | a :: b :: r, t, h => by
    rw [hasDupSlash_cons_cons] at h
    show hasDupSlash (a :: b :: (r ++ t)) = true
    rw [hasDupSlash_cons_cons]
    rcases Bool.or_eq_true_iff.mp h with h1 | h2
    · rw [h1]
      rfl
    · rw [show b :: (r ++ t) = (b :: r) ++ t from rfl,
        hasDupSlash_append_left (b :: r) t h2]
      simp
  | [], _, h => by cases h
  | [_], _, h => by cases h

/-- Double-slash-freeness restricts to prefixes. -/
theorem hasDupSlash_mono (a l : Str) (hp : a <+: l)
    (h : hasDupSlash l = false) : hasDupSlash a = false := by
  obtain ⟨t, rfl⟩ := hp
  cases ha : hasDupSlash a with
  | false => rfl
  | true => rw [hasDupSlash_append_left a t ha] at h; cases h

/-- Invariant of the absolute-path component loop of `normpath`: starting
from a good accumulator, every kept component is nonempty, slash-free and —
crucially, since with initial slashes a leading `..` is never kept — not
`..`. -/
theorem normComps_good : ∀ (comps acc : List Str),
    (∀ x ∈ acc, x ≠ S ".." ∧ x ≠ [] ∧ '/' ∉ x) →
    (∀ x ∈ comps, '/' ∉ x) →
    ∀ x ∈ normComps true acc comps, x ≠ S ".." ∧ x ≠ [] ∧ '/' ∉ x
  | [], acc, hacc, _, x, hx => hacc x hx
  | comp :: rest, acc, hacc, hcomps, x, hx => by
    have hrest : ∀ y ∈ rest, '/' ∉ y :=
      fun y hy => hcomps y (List.mem_cons_of_mem comp hy)
    unfold normComps at hx
    by_cases h1 : comp = [] ∨ comp = ['.']
    · rw [if_pos h1] at hx
      exact normComps_good rest acc hacc hrest x hx
    · rw [if_neg h1] at hx
      by_cases h2 : comp ≠ ['.', '.'] ∨ (¬(true : Bool) ∧ acc = []) ∨
          acc.head? = some ['.', '.']
      · rw [if_pos h2] at hx
        refine normComps_good rest (comp :: acc) ?_ hrest x hx
        intro y hy
        rcases List.mem_cons.mp hy with rfl | hy
        · refine ⟨?_, fun he => h1 (Or.inl he), hcomps y (List.mem_cons_self _ _)⟩
          rcases h2 with h2 | h2 | h2
          · exact h2
          · exact absurd rfl h2.1
          · exact absurd (hacc _ (List.mem_of_mem_head? h2)).1 (fun h => h rfl)
        · exact hacc y hy
      · rw [if_neg h2] at hx
        cases hac : acc with
        | nil =>
          rw [hac] at hx
          exact normComps_good rest [] (fun y hy => absurd hy (List.not_mem_nil y))
            hrest x hx
        | cons a t =>
          rw [hac] at hx
          exact normComps_good rest t
            (fun y hy => hacc y (hac ▸ List.mem_cons_of_mem a hy)) hrest x hx

/-- Every component of the split of a slash-join is empty or one of the
joined components. -/
theorem mem_splitSlash_joinSlash (nc : List Str)
    (hgood : ∀ c ∈ nc, c ≠ [] ∧ '/' ∉ c) :
    ∀ x ∈ splitSlash (joinSlash nc), x = [] ∨ x ∈ nc := by
  cases hnc : nc with
  | nil =>
    intro x hx
    rw [show joinSlash [] = [] from rfl] at hx
    rw [show splitSlash [] = [[]] from rfl, List.mem_singleton] at hx
    exact Or.inl hx
  | cons c cs =>
    intro x hx
    rw [splitSlash_joinSlash (c :: cs)
      (fun y hy => (hgood y (hnc ▸ hy)).2) (fun h => List.noConfusion h)] at hx
    exact Or.inr (hnc ▸ hx)

/-- The key canonicalisation fact: a URL that starts with a slash and
equals its own normalised form (with the trailing-slash rule) has no `..`
component — with initial slashes, `normpath` eliminates every `..`. -/
theorem no_dotdot_of_canonical (url : Str) (h0 : url.take 1 = ['/'])
    (hcan : url_is_canonical url = true) : S ".." ∉ splitSlash url := by
  have hne : url ≠ [] := by
    intro h
    rw [h] at h0
    cases h0
  unfold url_is_canonical at hcan
  by_cases hbs : url.contains '\\'
  · rw [if_pos hbs] at hcan
    cases hcan
  · rw [if_neg hbs] at hcan
    simp only [decide_eq_true_eq] at hcan
    have hk : initialSlashes url = 1 ∨ initialSlashes url = 2 := by
      unfold initialSlashes
      rw [if_pos h0]
      by_cases h2 : url.take 2 = ['/', '/'] ∧ url.take 3 ≠ ['/', '/', '/']
      · rw [if_pos h2]
        exact Or.inr rfl
      · rw [if_neg h2]
        exact Or.inl rfl
    intro hmem
    set nc := (normComps (decide (initialSlashes url ≠ 0)) []
      (splitSlash url)).reverse with hncdef
    have habs : decide (initialSlashes url ≠ 0) = true := by
      rcases hk with hk | hk <;> rw [hk] <;> rfl
    have hgood : ∀ x ∈ nc, x ≠ S ".." ∧ x ≠ [] ∧ '/' ∉ x := by
      intro x hx
      rw [hncdef, List.mem_reverse, habs] at hx
      exact normComps_good (splitSlash url) []
        (fun y hy => absurd hy (List.not_mem_nil y))
        (mem_splitSlash_no_slash url) x hx
    have hnorm : normpathL url =
        List.replicate (initialSlashes url) '/' ++ joinSlash nc := by
      unfold normpathL
      rw [if_neg hne]
      dsimp only
      rw [← hncdef]
      have hrep : List.replicate (initialSlashes url) '/' ++ joinSlash nc ≠ [] := by
        rcases hk with hk | hk <;> rw [hk] <;> exact fun h => List.noConfusion h
      rw [if_neg hrep]
    have hjoin : ∀ x ∈ splitSlash (joinSlash nc), x = [] ∨ x ∈ nc :=
      mem_splitSlash_joinSlash nc (fun c hc => ⟨(hgood c hc).2.1, (hgood c hc).2.2⟩)
    have hxin : ∀ x ∈ splitSlash url, x = [] ∨ x ∈ nc := by
      intro x hx
      by_cases htr : url.getLast? = some '/' ∧ url ≠ ['/']
      · rw [if_pos htr] at hcan
        rw [← hcan, hnorm, List.append_assoc] at hx
        rcases hk with hk | hk <;> rw [hk] at hx
        · rw [show List.replicate 1 '/' ++ (joinSlash nc ++ ['/']) =
              '/' :: (joinSlash nc ++ '/' :: []) from rfl,
            splitSlash_cons_slash, splitSlash_append] at hx
          rcases List.mem_cons.mp hx with rfl | hx
          · exact Or.inl rfl
          · rcases List.mem_append.mp hx with hx | hx
            · exact hjoin x hx
            · rw [show splitSlash [] = [[]] from rfl, List.mem_singleton] at hx
              exact Or.inl hx
        · rw [show List.replicate 2 '/' ++ (joinSlash nc ++ ['/']) =
              '/' :: '/' :: (joinSlash nc ++ '/' :: []) from rfl,
            splitSlash_cons_slash, splitSlash_cons_slash, splitSlash_append] at hx
          rcases List.mem_cons.mp hx with rfl | hx
          · exact Or.inl rfl
          · rcases List.mem_cons.mp hx with rfl | hx
            · exact Or.inl rfl
            · rcases List.mem_append.mp hx with hx | hx
              · exact hjoin x hx
              · rw [show splitSlash [] = [[]] from rfl, List.mem_singleton] at hx
                exact Or.inl hx
      · rw [if_neg htr] at hcan
        rw [← hcan, hnorm] at hx
        rcases hk with hk | hk <;> rw [hk] at hx
        · rw [show List.replicate 1 '/' ++ joinSlash nc =
              '/' :: joinSlash nc from rfl, splitSlash_cons_slash] at hx
          rcases List.mem_cons.mp hx with rfl | hx
          · exact Or.inl rfl
          · exact hjoin x hx
        · rw [show List.replicate 2 '/' ++ joinSlash nc =
              '/' :: '/' :: joinSlash nc from rfl, splitSlash_cons_slash,
            splitSlash_cons_slash] at hx
          rcases List.mem_cons.mp hx with rfl | hx
          · exact Or.inl rfl
          · rcases List.mem_cons.mp hx with rfl | hx
            · exact Or.inl rfl
            · exact hjoin x hx
    rcases hxin (S "..") hmem with h | h
    · cases h
    · exact (hgood _ h).1 rfl

/-- A URL containing a backslash is never canonical. -/
theorem not_canonical_of_backslash (url : Str) (h : url.contains '\\' = true) :
    url_is_canonical url = false := by
  unfold url_is_canonical
  rw [if_pos h]

/-- C5 counterexample: the claim as stated is false.  The URL `//srv/x`
contains duplicate slashes, yet `posixpath.normpath` preserves exactly two
leading slashes, so it passes `url_is_canonical`; with root `/srv/` mounted
at prefix `/`, the URL remainder `/srv/x` is absolute, `os.path.join`
returns it unchanged, the `commonprefix` guard accepts it, and `find_file`
resolves it to the file `/srv/x` on disk. -/
theorem claim5_counterexample :
    hasDupSlash (S "//srv/x") = true ∧
    url_is_canonical (S "//srv/x") = true ∧
    find_file none [(S "/srv/", S "/")] Fx.diskSrv (S "//srv/x") =
      .ok (some (.staticFile (S "/srv/x"))) := ⟨rfl, by decide, rfl⟩

/-- A prefix starting with a slash forces the URL to start with a slash. -/
theorem take_one_of_leading (a l : Str) (hp : a <+: l) (h : a.take 1 = ['/']) :
    l.take 1 = ['/'] := by
  obtain ⟨t, rfl⟩ := hp
  rw [List.take_append_eq_append_take, h]
  cases a with
  | nil => cases h
  | cons c t' => simp

/-- C5 (find_file half): a URL that contains a backslash, differs from its
own normalised form, or contains a `..` component never resolves in
autorefresh mode: `find_file` returns `none` (without touching the disk),
provided every registered prefix starts with a slash (as
`ensure_leading_trailing_slash` guarantees). -/
theorem find_file_none_of_bad (idx : Option Str) (dirs : List (Str × Str))
    (disk : Disk) (url : Str)
    (hdirs : ∀ d ∈ dirs, d.2.take 1 = ['/'])
    (hbad : url.contains '\\' = true ∨ S ".." ∈ splitSlash url ∨
      url_is_canonical url = false) :
    find_file idx dirs disk url = .ok none := by
  by_cases hcan : url_is_canonical url = true
  · -- the interesting case: canonical but with a `..` component; no
    -- prefix can match since the URL cannot start with a slash
    have hdd : S ".." ∈ splitSlash url := by
      rcases hbad with h | h | h
      · rw [not_canonical_of_backslash url h] at hcan
        cases hcan
      · exact h
      · rw [h] at hcan
        cases hcan
    have hslash : ¬(url.take 1 = ['/']) :=
      fun h0 => no_dotdot_of_canonical url h0 hcan hdd
    have hcand : candidate_paths_for_url dirs url = [] := by
      apply List.filterMap_eq_nil_iff.mpr
      intro d hd
      have hpf : d.2.isPrefixOf url = false := by
        cases hio : d.2.isPrefixOf url with
        | false => rfl
        | true =>
          exact absurd (take_one_of_leading d.2 url
            (List.isPrefixOf_iff_prefix.mp hio) (hdirs d hd)) hslash
      rw [hpf]
      rfl
    unfold find_file
    by_cases h1 : idx = none ∧ url.getLast? = some '/'
    · rw [if_pos h1]
    · rw [if_neg h1, if_neg (fun h => h hcan), hcand]
      rfl
  · unfold find_file
    by_cases h1 : idx = none ∧ url.getLast? = some '/'
    · rw [if_pos h1]
    · rw [if_neg h1, if_pos hcan]

/-- A double slash survives prepending. -/
theorem hasDupSlash_append_right : ∀ (a b : Str), hasDupSlash b = true →
    hasDupSlash (a ++ b) = true
  | [], _, h => h
  | x :: xs, b, h => by
    have ih := hasDupSlash_append_right xs b h
    cases hxb : xs ++ b with
    | nil =>
      rw [hxb] at ih
      cases ih
    | cons y t =>
      show hasDupSlash (x :: (xs ++ b)) = true
      rw [hxb, hasDupSlash_cons_cons, ← hxb, ih]
      simp

/-- Nonempty components rule out a double slash. -/
theorem hasDupSlash_of_comps (r : Str) (h : ∀ c ∈ splitSlash r, c ≠ []) :
    hasDupSlash r = false := by
  rw [← joinSlash_splitSlash r]
  exact hasDupSlash_joinSlash (splitSlash r)
    (fun c hc => ⟨h c hc, mem_splitSlash_no_slash r c hc⟩)

/-- Nonempty components rule out a leading slash. -/
theorem head_ne_slash_of_comps (r : Str) (h : ∀ c ∈ splitSlash r, c ≠ []) :
    r.head? ≠ some '/' := by
  cases r with
  | nil => exact fun hc => Option.noConfusion hc
  | cons c t =>
    intro hc
    rw [show (c :: t).head? = some c from rfl, Option.some_inj] at hc
    subst hc
    exact h [] (splitSlash_cons_slash t ▸ List.mem_cons_self [] (splitSlash t)) rfl

/-- A scan-produced URL — clean prefix plus clean relative path — has none
of C5's anomalies. -/
theorem url_good (pfx r : Str)
    (hp1 : pfx.getLast? = some '/') (hp2 : hasDupSlash pfx = false)
    (hp3 : '\\' ∉ pfx) (hp4 : S ".." ∉ splitSlash pfx)
    (hr1 : '\\' ∉ r) (hr2 : ∀ c ∈ splitSlash r, c ≠ [] ∧ c ≠ S "..") :
    goodStr (pfx ++ r) := by
  have hdec : pfx.dropLast ++ ['/'] = pfx := List.dropLast_append_getLast? '/' hp1
  refine ⟨?_, ?_, ?_⟩
  · intro hm
    rcases List.mem_append.mp hm with hm | hm
    · exact hp3 hm
    · exact hr1 hm
  · intro hm
    rw [← hdec, List.append_assoc, List.singleton_append, splitSlash_append] at hm
    rcases List.mem_append.mp hm with hm | hm
    · apply hp4
      rw [← hdec, splitSlash_append]
      exact List.mem_append.mpr (Or.inl hm)
    · exact (hr2 _ hm).2 rfl
  · exact hasDupSlash_append pfx r hp2
      (hasDupSlash_of_comps r (fun c hc => (hr2 c hc).1))
      (fun _ => head_ne_slash_of_comps r (fun c hc => (hr2 c hc).1))

/-- The directory-URL prefix cut out of a URL ending in `/<index>`. -/
theorem take_before_suffix (u' i : Str) :
    (u' ++ '/' :: i).take ((u' ++ '/' :: i).length - i.length) = u' ++ ['/'] := by
  have hlen : (u' ++ '/' :: i).length - i.length = u'.length + 1 := by
    simp only [List.length_append, List.length_cons]
    omega
  rw [hlen, List.take_append_eq_append_take, List.take_of_length_le (by omega)]
  congr 1
  have h1 : u'.length + 1 - u'.length = 1 := by omega
  rw [h1]
  rfl

/-- Both synthetic index keys derived from a clean URL are clean. -/
theorem index_keys_good (url i : Str) (hg : goodStr url)
    (hi1 : i ≠ []) (hi2 : '/' ∉ i)
    (hsuf : ('/' :: i).isSuffixOf url = true) :
    goodStr (url.take (url.length - i.length)) ∧
    goodStr (rstripSlash (url.take (url.length - i.length))) := by
  obtain ⟨u', rfl⟩ := List.isSuffixOf_iff_suffix.mp hsuf
  rw [take_before_suffix]
  obtain ⟨hg1, hg2, hg3⟩ := hg
  have hcomps : splitSlash (u' ++ '/' :: i) = splitSlash u' ++ [i] := by
    rw [splitSlash_append, splitSlash_slashfree i hi2]
  have hu'last : u'.getLast? ≠ some '/' := by
    intro hl
    have hdec : u'.dropLast ++ ['/'] = u' := List.dropLast_append_getLast? '/' hl
    rw [← hdec, List.append_assoc, List.singleton_append] at hg3
    rw [hasDupSlash_append_right u'.dropLast ('/' :: '/' :: i) rfl] at hg3
    cases hg3
  have hgu' : goodStr u' := by
    refine ⟨?_, ?_, ?_⟩
    · intro hm
      exact hg1 (List.mem_append.mpr (Or.inl hm))
    · intro hm
      apply hg2
      rw [hcomps]
      exact List.mem_append.mpr (Or.inl hm)
    · exact hasDupSlash_mono u' _ ⟨'/' :: i, rfl⟩ hg3
  refine ⟨⟨?_, ?_, ?_⟩, ?_⟩
  · intro hm
    rcases List.mem_append.mp hm with hm | hm
    · exact hgu'.1 hm
    · rw [List.mem_singleton] at hm
      cases hm
  · intro hm
    rw [show u' ++ ['/'] = u' ++ '/' :: [] from rfl, splitSlash_append] at hm
    rcases List.mem_append.mp hm with hm | hm
    · exact hgu'.2.1 hm
    · rw [show splitSlash [] = [[]] from rfl, List.mem_singleton] at hm
      cases hm
  · exact hasDupSlash_mono (u' ++ ['/']) _
      ⟨i, by rw [List.append_assoc]; rfl⟩ hg3
  · rw [rstripSlash_append_slash u' hu'last]
    exact hgu'

/-- Every assignment of an eager index build comes from one scanned path. -/
theorem update_go_mem (idx : Option Str) (root pfx : Str) (paths : List Str) :
    ∀ (ps : List Str) (l : List (Str × UrlEntry)),
      update_files_dictionary.go idx root pfx paths ps = some l →
      ∀ ke ∈ l, ∃ p ∈ ps, ∃ l',
        add_file_to_dictionary idx (is_compressed_variant_cached paths)
          (urlOfPath root pfx p) p = some l' ∧ ke ∈ l'
  | [], l, h, ke, hke => by
    rw [show update_files_dictionary.go idx root pfx paths [] = some [] from rfl,
      Option.some_inj] at h
    rw [← h] at hke
    exact absurd hke (List.not_mem_nil ke)
  | p :: rest, l, h, ke, hke => by
    unfold update_files_dictionary.go at h
    rcases ha : add_file_to_dictionary idx (is_compressed_variant_cached paths)
        (urlOfPath root pfx p) p with _ | a <;> rw [ha] at h
    · cases h
    · rcases hg : update_files_dictionary.go idx root pfx paths rest with _ | b <;>
        rw [hg] at h
      · cases h
      · rw [Option.some_inj] at h
        rw [← h] at hke
        rcases List.mem_append.mp hke with hke | hke
        · exact ⟨p, List.mem_cons_self p rest, a, ha, hke⟩
        · obtain ⟨q, hq, l', hl', hkel'⟩ :=
            update_go_mem idx root pfx paths rest b hg ke hke
          exact ⟨q, List.mem_cons_of_mem p hq, l', hl', hkel'⟩

/-- The keys an `add_file_to_dictionary` call can register: the URL itself
or, when the URL ends in `/<index>`, the two synthetic index keys. -/
theorem add_mem_keys (idx : Option Str) (cp : Str → Bool) (url path : Str)
    (l : List (Str × UrlEntry))
    (h : add_file_to_dictionary idx cp url path = some l)
    (ke : Str × UrlEntry) (hke : ke ∈ l) :
    ke.1 = url ∨ ∃ i, idx = some i ∧ ('/' :: i).isSuffixOf url = true ∧
      (ke.1 = url.take (url.length - i.length) ∨
       ke.1 = rstripSlash (url.take (url.length - i.length))) := by
  unfold add_file_to_dictionary at h
  by_cases hcp : cp path = true
  · rw [hcp] at h
    simp only [if_true] at h
    rw [Option.some_inj] at h
    rw [← h] at hke
    exact absurd hke (List.not_mem_nil ke)
  · rw [Bool.not_eq_true] at hcp
    rw [hcp] at h
    simp only [Bool.false_eq_true, if_false] at h
    cases idx with
    | none =>
      rw [Option.some_inj] at h
      rw [← h, List.mem_singleton] at hke
      exact Or.inl (by rw [hke])
    | some i =>
      dsimp only at h
      by_cases hsuf : ('/' :: i).isSuffixOf url = true
      · rw [hsuf] at h
        simp only [if_true] at h
        rcases hr1 : redirectRel i url (url.take (url.length - i.length)) with _ | r1 <;>
          rw [hr1] at h
        · cases h
        · rcases hr2 : redirectRel i
              (rstripSlash (url.take (url.length - i.length)))
              (url.take (url.length - i.length)) with _ | r2 <;> rw [hr2] at h
          · cases h
          · rw [Option.some_inj] at h
            rw [← h] at hke
            rcases List.mem_cons.mp hke with rfl | hke
            · exact Or.inl rfl
            · rcases List.mem_cons.mp hke with rfl | hke
              · exact Or.inr ⟨i, rfl, hsuf, Or.inr rfl⟩
              · rw [List.mem_singleton] at hke
                rw [hke]
                exact Or.inr ⟨i, rfl, hsuf, Or.inl rfl⟩
      · rw [Bool.not_eq_true] at hsuf
        rw [hsuf] at h
        simp only [Bool.false_eq_true, if_false, Option.some_inj] at h
        rw [← h, List.mem_singleton] at hke
        exact Or.inl (by rw [hke])

/-- Every key of an eager index built from a clean prefix and a real scanned
tree is free of C5's anomalies. -/
theorem staticKeys_good (idx : Option Str) (root pfx : Str) (paths : List Str)
    (hp1 : pfx.getLast? = some '/') (hp2 : hasDupSlash pfx = false)
    (hp3 : '\\' ∉ pfx) (hp4 : S ".." ∉ splitSlash pfx)
    (hrel : ∀ p ∈ paths, ∃ r, p = root ++ r ∧ '\\' ∉ r ∧
      ∀ c ∈ splitSlash r, c ≠ [] ∧ c ≠ S "..")
    (hidx : ∀ i, idx = some i → i ≠ [] ∧ '/' ∉ i) :
    ∀ k ∈ staticKeys idx root pfx paths, goodStr k := by
  intro k hk
  unfold staticKeys at hk
  rcases hupd : update_files_dictionary idx root pfx paths with _ | l <;>
    rw [hupd] at hk
  · exact absurd hk (List.not_mem_nil k)
  · rw [show (some l).getD [] = l from rfl, List.mem_map] at hk
    obtain ⟨ke, hkel, rfl⟩ := hk
    unfold update_files_dictionary at hupd
    obtain ⟨p, hp, l', ha, hkel'⟩ :=
      update_go_mem idx root pfx paths paths l hupd ke hkel
    obtain ⟨r, rfl, hr1, hr2⟩ := hrel p hp
    have hurl : urlOfPath root pfx (root ++ r) = pfx ++ r := by
      unfold urlOfPath
      rw [List.drop_left]
      rw [List.map_congr_left (fun c hc => by
        exact if_neg (fun hbs : c = '\\' => hr1 (hbs ▸ hc)))]
      simp
    rw [hurl] at ha
    have hg : goodStr (pfx ++ r) := url_good pfx r hp1 hp2 hp3 hp4 hr1 hr2
    rcases add_mem_keys idx _ (pfx ++ r) (root ++ r) l' ha ke hkel' with
      hkey | ⟨i, hieq, hsuf, hkey⟩
    · rw [hkey]
      exact hg
    · obtain ⟨hi1, hi2⟩ := hidx i hieq
      rcases hkey with hkey | hkey <;> rw [hkey]
      · exact (index_keys_good (pfx ++ r) i hg hi1 hi2 hsuf).1
      · exact (index_keys_good (pfx ++ r) i hg hi1 hi2 hsuf).2

/-- C5 (amended): URLs containing a backslash or a `..` component, and URLs
differing from their own normalised form, never resolve through `find_file`
in autorefresh mode (given every registered prefix starts with a slash); and
in static mode no URL containing a backslash, a `..` component, or duplicate
slashes is ever a key of the precomputed files mapping (built from a clean
prefix and a scan of a real directory tree, whose entry names contain no
backslash and whose relative paths have no empty or `..` components).  The
`duplicate slashes` clause of the original claim fails for `find_file`
exactly on URLs with two leading slashes, which POSIX normalisation
preserves (see the counterexample). -/
theorem claim5_bad_urls_never_resolve (idx : Option Str)
    (dirs : List (Str × Str)) (disk : Disk) (url : Str)
    (root pfx : Str) (paths : List Str)
    (hdirs : ∀ d ∈ dirs, d.2.take 1 = ['/'])
    (hp1 : pfx.getLast? = some '/') (hp2 : hasDupSlash pfx = false)
    (hp3 : '\\' ∉ pfx) (hp4 : S ".." ∉ splitSlash pfx)
    (hrel : ∀ p ∈ paths, ∃ r, p = root ++ r ∧ '\\' ∉ r ∧
      ∀ c ∈ splitSlash r, c ≠ [] ∧ c ≠ S "..")
    (hidx : ∀ i, idx = some i → i ≠ [] ∧ '/' ∉ i) :
    (('\\' ∈ url ∨ S ".." ∈ splitSlash url ∨ url_is_canonical url = false) →
      find_file idx dirs disk url = .ok none) ∧
    (('\\' ∈ url ∨ S ".." ∈ splitSlash url ∨ hasDupSlash url = true) →
      url ∉ staticKeys idx root pfx paths) := by
  constructor
  · intro hbad
    apply find_file_none_of_bad idx dirs disk url hdirs
    rcases hbad with h | h | h
    · exact Or.inl (List.elem_iff.mpr h)
    · exact Or.inr (Or.inl h)
    · exact Or.inr (Or.inr h)
  · intro hbad hk
    have hg := staticKeys_good idx root pfx paths hp1 hp2 hp3 hp4 hrel hidx url hk
    rcases hbad with h | h | h
    · exact hg.1 h
    · exact hg.2.1 h
    · rw [hg.2.2] at h
      cases h

/-- C5 witness: `/a/../x` never resolves through `find_file` even though
`/srv/a/../x` would name an existing file, and a backslash URL is not a key
of a concrete eager index. -/
theorem claim5_witness :
    find_file none [(S "/srv/", S "/")] Fx.diskSrv (S "/a/../x") = .ok none ∧
    S "/static/..\\x" ∉ staticKeys (some (S "index.html")) (S "/r/")
      (S "/static/") [S "/r/app.js", S "/r/docs/index.html"] := by
  have h := claim5_bad_urls_never_resolve none [(S "/srv/", S "/")] Fx.diskSrv
    (S "/a/../x") (S "/r/") (S "/static/")
    [S "/r/app.js", S "/r/docs/index.html"]
    (by
      intro d hd
      rw [List.mem_singleton] at hd
      rw [hd]
      rfl)
    (by decide) (by decide) (by decide) (by decide)
    (by
      intro p hp
      rcases List.mem_cons.mp hp with rfl | hp
      · exact ⟨S "app.js", rfl, by decide, by decide⟩
      · rcases List.mem_cons.mp hp with rfl | hp
        · exact ⟨S "docs/index.html", rfl, by decide, by decide⟩
        · exact absurd hp (List.not_mem_nil p))
    (fun i hi => by cases hi)
  have h2 := claim5_bad_urls_never_resolve (some (S "index.html"))
    [(S "/srv/", S "/")] Fx.diskSrv (S "/static/..\\x") (S "/r/") (S "/static/")
    [S "/r/app.js", S "/r/docs/index.html"]
    (by
      intro d hd
      rw [List.mem_singleton] at hd
      rw [hd]
      rfl)
    (by decide) (by decide) (by decide) (by decide)
    (by
      intro p hp
      rcases List.mem_cons.mp hp with rfl | hp
      · exact ⟨S "app.js", rfl, by decide, by decide⟩
      · rcases List.mem_cons.mp hp with rfl | hp
        · exact ⟨S "docs/index.html", rfl, by decide, by decide⟩
        · exact absurd hp (List.not_mem_nil p))
    (fun i hi => by
      cases hi
      exact ⟨by decide, by decide⟩)
  exact ⟨h.1 (Or.inr (Or.inl (by decide))), h2.2 (Or.inl (by decide))⟩

end ServeStatic
